import Mathlib

/-!
# Columnar transposition cipher (`main.c`)

A shallow embedding of `standardize_chars`, `keychar_cmp`, `encryption` and
`decryption` of `main.c`, followed by the properties proved about them.

Modelling conventions.

* A C `char` is modelled by its integer value, an `Int`.  Comparisons of
  `char`s in C are comparisons of their promoted `int` values, so one model
  covers both a signed and an unsigned plain `char`.
* A C string is the list of its characters before the terminating NUL; a
  `char *` argument that may be `NULL` is an `Option` of such a list.
* Arrays written by index (`matrix`, `cipher`, `plain`) are lists with
  bounds-checked reads and writes: an access outside the allocated object makes
  the whole operation end in `Error.OutOfBounds`.
* `for` loops are explicit state passing through `forLoop`.
* `size_t` and `int` arithmetic is done on `Nat`/`Int`: lengths are those of
  in-memory strings, far below `2^31`, so no operation of the program wraps.
* `malloc`/`calloc` are assumed to succeed; the `printf` calls are represented
  by the record of the values they print.
-/

namespace Ctr

/-- The characters of a string literal, as C `char` values. -/
def str (s : String) : List Int := s.toList.map (fun c => Int.ofNat c.toNat)

/-- The function `to_lower_char`: `'A' = 65`, `'Z' = 90`. -/
def to_lower_char (c : Int) : Int :=
  if c ≥ 65 ∧ c ≤ 90 then c + 32 else c

/-- One iteration of the loop of `standardize_chars` on the character `s[i]`:
`' ' = 32`, `'_' = 95`. -/
def standardize_step (c : Int) : Int :=
  let c1 := if c = 32 then 95 else c
  to_lower_char c1

/-- The loop of `standardize_chars`: every character up to the terminator is
rewritten in place. -/
def standardize_loop (s : List Int) : List Int :=
  s.map standardize_step

/-- The function `standardize_chars`: `NULL` is returned for `NULL`, otherwise the string
rewritten by the loop. -/
def standardize_chars : Option (List Int) → Option (List Int)
  | none => none
  | some s => some (standardize_loop s)

/-- The struct `KeyChar`. -/
structure KeyChar where
  ch : Int
  idx : Int
  deriving DecidableEq

/-- The comparator `keychar_cmp`. -/
def keychar_cmp (A B : KeyChar) : Int :=
  if A.ch < B.ch then -1
  else if A.ch > B.ch then 1
  else A.idx - B.idx

/-- The C library function `qsort` with comparator `cmp`: the array is
rearranged into ascending order of `cmp`.  The library leaves the algorithm
open; insertion by `cmp a b ≤ 0` is used as the reference implementation. -/
def qsort {α : Type} (cmp : α → α → Int) (l : List α) : List α :=
  l.insertionSort (fun a b => cmp a b ≤ 0)

/-- The errors of the two operations.  `InvalidInput` is the path printing
"Missing text or key", `EmptyKey` the path printing "Key must contain at least
one character"; `OutOfBounds` marks an access outside an allocated object. -/
inductive Error where
  | InvalidInput
  | EmptyKey
  | OutOfBounds
  deriving DecidableEq

/-- Iterations `i, i+1, ..., i+cnt-1` of a loop body over a state. -/
def loopFrom {σ : Type} (body : Nat → σ → Option σ) : Nat → Nat → σ → Option σ
  | _, 0, s => some s
  | i, cnt + 1, s =>
    match body i s with
    | none => none
    | some s1 => loopFrom body (i + 1) cnt s1

/-- The loop `for (size_t i = 0; i < n; ++i) body`. -/
def forLoop {σ : Type} (n : Nat) (body : Nat → σ → Option σ) (s : σ) : Option σ :=
  loopFrom body 0 n s

/-- The grid `char **matrix`: a list of rows. -/
abbrev Matrix := List (List Int)

/-- The read `matrix[r][c]`, checked. -/
def Matrix.read (m : Matrix) (r c : Nat) : Option Int :=
  match m[r]? with
  | none => none
  | some row => row[c]?

/-- The write `matrix[r][c] = v`, checked. -/
def Matrix.write (m : Matrix) (r c : Nat) (v : Int) : Option Matrix :=
  match m[r]? with
  | none => none
  | some row => if c < row.length then some (m.set r (row.set c v)) else none

/-- The allocation loop of both operations: `rows` rows of `cols` cells, every
cell set to `'_'`. -/
def alloc_matrix (rows cols : Nat) : Matrix :=
  List.replicate rows (List.replicate cols 95)

/-- The write `buf[pos++] = v` into an output buffer, checked. -/
def emit (st : List Int × Nat) (v : Int) : Option (List Int × Nat) :=
  if st.2 < st.1.length then some (st.1.set st.2 v, st.2 + 1) else none

/-- The final write `buf[pos] = 0` and the string the buffer then holds. -/
def terminate (st : List Int × Nat) : Option (List Int) :=
  if st.2 < st.1.length then some ((st.1.set st.2 0).take st.2) else none

/-- The loop `karr[i].ch = key[i]; karr[i].idx = (int)i` over `i < cols`. -/
def build_karr (key : List Int) : List KeyChar :=
  key.enum.map (fun p => KeyChar.mk p.2 (Int.ofNat p.1))

/-- The array `karr` of both operations: built from the key, then
`qsort(karr, cols, sizeof(KeyChar), keychar_cmp)`. -/
def sorted_karr (key : List Int) : List KeyChar :=
  qsort keychar_cmp (build_karr key)

/-- The loop of `encryption` that fills the matrix row-wise. -/
def fill_rowwise (text : List Int) (cols : Nat) (m : Matrix) : Option Matrix :=
  forLoop text.length (fun i m =>
    match text[i]? with
    | none => none
    | some ch => m.write (i / cols) (i % cols) ch) m

/-- The loops of `encryption` that read the columns in sorted-key order. -/
def read_columns (m : Matrix) (karr : List KeyChar) (rows cols : Nat)
    (st : List Int × Nat) : Option (List Int × Nat) :=
  forLoop cols (fun k st =>
    match karr[k]? with
    | none => none
    | some kc =>
      let col := kc.idx.toNat
      forLoop rows (fun r st =>
        match m.read r col with
        | none => none
        | some v => emit st v) st) st

/-- What `encryption` prints: the standardized text and key, the dimensions,
the matrix, the sorted key and the ciphertext. -/
structure EncodeResult where
  text : List Int
  key : List Int
  rows : Nat
  cols : Nat
  matrix : Matrix
  karr : List KeyChar
  cipher : List Int
  deriving DecidableEq

/-- The body of `encryption` after the key check. -/
def encrypt_core (text key : List Int) : Option EncodeResult :=
  let text_len := text.length
  let cols := key.length
  let rows := (text_len + cols - 1) / cols
  match fill_rowwise text cols (alloc_matrix rows cols) with
  | none => none
  | some matrix =>
    let karr := sorted_karr key
    let total := rows * cols
    match read_columns matrix karr rows cols (List.replicate (total + 1) 0, 0) with
    | none => none
    | some st =>
      match terminate st with
      | none => none
      | some cipher => some (EncodeResult.mk text key rows cols matrix karr cipher)

/-- The function `encryption`; `standardize_chars` is called on the two pointers after the
`NULL` check. -/
def encryption (text key : Option (List Int)) : Except Error EncodeResult :=
  match text, key with
  | some text0, some key0 =>
    let text := standardize_loop text0
    let key := standardize_loop key0
    if key.length = 0 then Except.error Error.EmptyKey
    else
      match encrypt_core text key with
      | none => Except.error Error.OutOfBounds
      | some res => Except.ok res
  | _, _ => Except.error Error.InvalidInput

/-- The loops of `decryption` that fill the matrix using the sorted key. -/
def fill_columns (cipher : List Int) (karr : List KeyChar) (rows cols : Nat)
    (st : Matrix × Nat) : Option (Matrix × Nat) :=
  forLoop cols (fun k st =>
    match karr[k]? with
    | none => none
    | some kc =>
      let col := kc.idx.toNat
      forLoop rows (fun r st =>
        if st.2 < cipher.length then
          match cipher[st.2]? with
          | none => none
          | some v =>
            match st.1.write r col v with
            | none => none
            | some m1 => some (m1, st.2 + 1)
        else
          match st.1.write r col 95 with
          | none => none
          | some m1 => some (m1, st.2)) st) st

/-- The loops of `decryption` that read the matrix row by row, turning `'_'`
into `' '`. -/
def read_rows (m : Matrix) (rows cols : Nat) (st : List Int × Nat) :
    Option (List Int × Nat) :=
  forLoop rows (fun r st =>
    forLoop cols (fun c st =>
      match m.read r c with
      | none => none
      | some ch => emit st (if ch = 95 then 32 else ch)) st) st

/-- What `decryption` prints: the standardized key, the dimensions, the matrix,
the sorted key and the plaintext; `warning` records whether the line
"Warning: cipher length ... not multiple of cols" went to `stderr`. -/
structure DecodeResult where
  key : List Int
  rows : Nat
  cols : Nat
  matrix : Matrix
  karr : List KeyChar
  plain : List Int
  warning : Bool
  deriving DecidableEq

/-- The body of `decryption` after the key check. -/
def decrypt_core (cipher key : List Int) : Option DecodeResult :=
  let cipher_len := cipher.length
  let cols := key.length
  let warning := decide (cipher_len % cols ≠ 0)
  let rows := if cipher_len % cols ≠ 0 then (cipher_len + cols - 1) / cols else cipher_len / cols
  let karr := sorted_karr key
  match fill_columns cipher karr rows cols (alloc_matrix rows cols, 0) with
  | none => none
  | some mst =>
    match read_rows mst.1 rows cols (List.replicate (rows * cols + 1) 0, 0) with
    | none => none
    | some st =>
      match terminate st with
      | none => none
      | some plain => some (DecodeResult.mk key rows cols mst.1 karr plain warning)

/-- The function `decryption`; `standardize_chars` is called on the key after the `NULL`
check, the ciphertext is used as given. -/
def decryption (cipher key : Option (List Int)) : Except Error DecodeResult :=
  match cipher, key with
  | some cipher, some key0 =>
    let key := standardize_loop key0
    if key.length = 0 then Except.error Error.EmptyKey
    else
      match decrypt_core cipher key with
      | none => Except.error Error.OutOfBounds
      | some res => Except.ok res
  | _, _ => Except.error Error.InvalidInput

/-! ## Auxiliary definitions used in the statements -/

/-- The value of the cell `matrix[r][c]` (`0` outside the matrix). -/
def Matrix.cell (m : Matrix) (r c : Nat) : Int :=
  (m.read r c).getD 0

/-- A matrix of `rows` rows, each of `cols` cells. -/
def Matrix.Shape (m : Matrix) (rows cols : Nat) : Prop :=
  m.length = rows ∧ ∀ row ∈ m, row.length = cols

/-- The column `(size_t)karr[k].idx` (`0` when `k` is outside `karr`). -/
def colOf (karr : List KeyChar) (k : Nat) : Nat :=
  match karr[k]? with
  | some kc => kc.idx.toNat
  | none => 0

/-- An output buffer of capacity `cap` whose first `n` cells hold `g 0, ..., g (n-1)`
and whose write position is `n`. -/
def BufInv (cap : Nat) (g : Nat → Int) (st : List Int × Nat) (n : Nat) : Prop :=
  st.1.length = cap ∧ st.2 = n ∧ ∀ i, i < n → st.1[i]? = some (g i)

/-- The character emitted at position `i` of the ciphertext. -/
def cipherAt (m : Matrix) (karr : List KeyChar) (rows : Nat) (i : Nat) : Int :=
  m.cell (i % rows) (colOf karr (i / rows))

/-- The character emitted at position `i` of the plaintext. -/
def plainAt (m : Matrix) (cols : Nat) (i : Nat) : Int :=
  if m.cell (i / cols) (i % cols) = 95 then 32 else m.cell (i / cols) (i % cols)

/-- The state of the column-filling loops of `decryption` after `t` cells were
written: the read position is `min t len`, and the cell `r` of the `j`-th sorted
column holds the ciphertext character `j * rows + r`, or `'_'` past its end. -/
def FillInv (cipher key : List Int) (rows t : Nat) (st : Matrix × Nat) : Prop :=
  st.1.Shape rows key.length ∧ st.2 = min t cipher.length ∧
    ∀ j r, r < rows → j * rows + r < t →
      st.1.read r (colOf (sorted_karr key) j) = some (cipher.getD (j * rows + r) 95)

/-- The column `c` of a matrix, read top to bottom. -/
def column (m : Matrix) (c : Nat) : List Int :=
  m.map (fun row => row.getD c 0)

/-- Two texts that differ only in having `'_'` (`95`) where the other has
`' '` (`32`). -/
def SameUpToFiller (s t : List Int) : Prop :=
  List.Forall₂ (fun a b => a = b ∨ (a = 95 ∧ b = 32) ∨ (a = 32 ∧ b = 95)) s t

/-- The position in the row-major grid of the cell that the column loops visit
at step `t`: row `t % rows` of the column `(size_t)karr[t / rows].idx`. -/
def cellPos (karr : List KeyChar) (rows cols : Nat) (t : Nat) : Nat :=
  (t % rows) * cols + colOf karr (t / rows)

/-! ## Loops -/

theorem loopFrom_inv {σ : Type} (body : Nat → σ → Option σ) (Inv : Nat → σ → Prop) :
    ∀ (cnt i : Nat) (s : σ), Inv i s →
      (∀ j t, i ≤ j → j < i + cnt → Inv j t → ∃ t1, body j t = some t1 ∧ Inv (j + 1) t1) →
      ∃ t, loopFrom body i cnt s = some t ∧ Inv (i + cnt) t
  | 0, i, s, h0, _ => ⟨s, rfl, by simpa using h0⟩
  | cnt + 1, i, s, h0, hstep => by
    obtain ⟨s1, hb, h1⟩ := hstep i s (le_refl _) (by omega) h0
    obtain ⟨t, ht, hI⟩ := loopFrom_inv body Inv cnt (i + 1) s1 h1
      (fun j t hj hlt hinv => hstep j t (by omega) (by omega) hinv)
    refine ⟨t, ?_, ?_⟩
    · simp [loopFrom, hb, ht]
    · have e : i + (cnt + 1) = i + 1 + cnt := by omega
      rw [e]; exact hI

/-- Invariant rule for `forLoop`: an invariant that holds initially and is kept
by every iteration (which does not fail) holds of the state the loop ends in. -/
theorem forLoop_inv {σ : Type} (body : Nat → σ → Option σ) (Inv : Nat → σ → Prop)
    (n : Nat) (s : σ) (h0 : Inv 0 s)
    (hstep : ∀ j t, j < n → Inv j t → ∃ t1, body j t = some t1 ∧ Inv (j + 1) t1) :
    ∃ t, forLoop n body s = some t ∧ Inv n t := by
  obtain ⟨t, ht, hI⟩ := loopFrom_inv body Inv n 0 s h0
    (fun j t _ hlt hinv => hstep j t (by omega) hinv)
  exact ⟨t, ht, by simpa using hI⟩

/-! ## Matrix reads and writes -/

theorem alloc_shape (rows cols : Nat) : (alloc_matrix rows cols).Shape rows cols := by
  refine ⟨by simp [alloc_matrix], ?_⟩
  intro row hrow
  simp only [alloc_matrix, List.mem_replicate] at hrow
  simp [hrow.2]

theorem alloc_read (rows cols r c : Nat) (hr : r < rows) (hc : c < cols) :
    (alloc_matrix rows cols).read r c = some 95 := by
  simp [Matrix.read, alloc_matrix, List.getElem?_replicate, hr, hc]

theorem Matrix.write_spec (m : Matrix) (rows cols r c : Nat) (v : Int)
    (hs : m.Shape rows cols) (hr : r < rows) (hc : c < cols) :
    ∃ m1, m.write r c v = some m1 ∧ m1.Shape rows cols ∧
      ∀ r1 c1, m1.read r1 c1 = if r1 = r ∧ c1 = c then some v else m.read r1 c1 := by
  obtain ⟨hlen, hrows⟩ := hs
  have hr1 : r < m.length := by omega
  have hrowlen : (m[r]).length = cols := hrows _ (List.getElem_mem hr1)
  refine ⟨m.set r ((m[r]).set c v), ?_, ⟨?_, ?_⟩, ?_⟩
  · simp [Matrix.write, List.getElem?_eq_getElem hr1, hrowlen, hc]
  · simp [hlen]
  · intro row hrow
    rcases List.mem_or_eq_of_mem_set hrow with h | h
    · exact hrows _ h
    · simp [h, hrowlen]
  · intro r1 c1
    by_cases h1 : r1 = r
    · subst h1
      by_cases h2 : c1 = c
      · subst h2
        simp [Matrix.read, List.getElem?_set, hr1, hrowlen, hc]
      · have h3 : ¬ c = c1 := fun h => h2 h.symm
        simp [Matrix.read, List.getElem?_set, hr1, h2, h3]
    · have h3 : ¬ r = r1 := fun h => h1 h.symm
      simp [Matrix.read, List.getElem?_set, h1, h3]

theorem Matrix.read_some (m : Matrix) (rows cols r c : Nat)
    (hs : m.Shape rows cols) (hr : r < rows) (hc : c < cols) :
    m.read r c = some (m.cell r c) := by
  obtain ⟨hlen, hrows⟩ := hs
  have hr1 : r < m.length := by omega
  have hrowlen : (m[r]).length = cols := hrows _ (List.getElem_mem hr1)
  have hc1 : c < (m[r]).length := by omega
  simp [Matrix.cell, Matrix.read, List.getElem?_eq_getElem hr1, List.getElem?_eq_getElem hc1]

/-! ## Output buffers -/

theorem bufInv_init (cap : Nat) (g : Nat → Int) :
    BufInv cap g (List.replicate cap 0, 0) 0 := by
  simp [BufInv]

theorem emit_spec (cap : Nat) (g : Nat → Int) (st : List Int × Nat) (n : Nat) (v : Int)
    (h : BufInv cap g st n) (hn : n < cap) (hv : v = g n) :
    ∃ st1, emit st v = some st1 ∧ BufInv cap g st1 (n + 1) := by
  obtain ⟨hlen, hpos, hcells⟩ := h
  refine ⟨(st.1.set st.2 v, st.2 + 1), ?_, ?_, ?_, ?_⟩
  · simp [emit, hlen, hpos, hn]
  · simp [hlen]
  · simp [hpos]
  · intro i hi
    by_cases hin : i = n
    · subst hin
      simp [List.getElem?_set, hpos, hlen, hn, hv]
    · have h1 : ¬ st.2 = i := by omega
      simp only [List.getElem?_set, h1, if_false]
      exact hcells i (by omega)

theorem terminate_spec (cap : Nat) (g : Nat → Int) (st : List Int × Nat) (n : Nat)
    (h : BufInv cap g st n) (hn : n < cap) :
    terminate st = some ((List.range n).map g) := by
  obtain ⟨buf, pos⟩ := st
  obtain ⟨hlen, hpos, hcells⟩ := h
  simp only at hlen hpos hcells
  subst hpos
  have h1 : pos < buf.length := by omega
  simp only [terminate, h1, if_true, Option.some.injEq]
  apply List.ext_getElem?
  intro i
  by_cases hi : i < pos
  · have h2 : ¬ pos = i := by omega
    simp [List.getElem?_take, List.getElem?_set, hi, h2, hcells i hi, List.getElem?_range]
  · have h3 : pos ≤ i := by omega
    simp [List.getElem?_take, hi, List.getElem?_eq_none, h3]

/-! ## The sorted key -/

theorem karr_length (key : List Int) : (sorted_karr key).length = key.length := by
  simp [sorted_karr, build_karr, qsort, List.length_insertionSort]

theorem karr_idx_perm (key : List Int) :
    ((sorted_karr key).map (fun kc => kc.idx)).Perm ((List.range key.length).map Int.ofNat) := by
  have h1 := (List.perm_insertionSort (fun a b => keychar_cmp a b ≤ 0)
    (build_karr key)).map (fun kc => kc.idx)
  have h2 : (build_karr key).map (fun kc => kc.idx)
      = (List.range key.length).map Int.ofNat := by
    rw [build_karr, ← List.enum_map_fst, List.map_map, List.map_map]
    rfl
  rw [h2] at h1
  exact h1

theorem karr_col_perm (key : List Int) :
    ((sorted_karr key).map (fun kc => kc.idx.toNat)).Perm (List.range key.length) := by
  have h1 := (karr_idx_perm key).map Int.toNat
  simp only [List.map_map] at h1
  have h2 : (Int.toNat ∘ Int.ofNat) = id := by
    funext n; simp
  rw [h2, List.map_id] at h1
  exact h1

theorem colOf_eq (karr : List KeyChar) (k : Nat) (hk : k < karr.length) :
    (karr.map (fun kc => kc.idx.toNat))[k]? = some (colOf karr k) := by
  simp [colOf, List.getElem?_eq_getElem hk]

theorem colOf_lt (key : List Int) (k : Nat) (hk : k < key.length) :
    colOf (sorted_karr key) k < key.length := by
  have hk1 : k < (sorted_karr key).length := by rw [karr_length]; exact hk
  have h1 := colOf_eq (sorted_karr key) k hk1
  have h2 : colOf (sorted_karr key) k ∈ (sorted_karr key).map (fun kc => kc.idx.toNat) :=
    List.getElem?_mem h1
  have h3 := (karr_col_perm key).mem_iff.1 h2
  exact List.mem_range.1 h3

theorem colOf_inj (key : List Int) (j k : Nat) (hj : j < key.length) (hk : k < key.length)
    (h : colOf (sorted_karr key) j = colOf (sorted_karr key) k) : j = k := by
  have hj1 : j < (sorted_karr key).length := by rw [karr_length]; exact hj
  have hk1 : k < (sorted_karr key).length := by rw [karr_length]; exact hk
  have hnd : ((sorted_karr key).map (fun kc => kc.idx.toNat)).Nodup :=
    (karr_col_perm key).nodup_iff.2 (List.nodup_range _)
  have hj2 : j < ((sorted_karr key).map (fun kc => kc.idx.toNat)).length := by simpa using hj1
  have hk2 : k < ((sorted_karr key).map (fun kc => kc.idx.toNat)).length := by simpa using hk1
  have e1 := colOf_eq (sorted_karr key) j hj1
  have e2 := colOf_eq (sorted_karr key) k hk1
  rw [List.getElem?_eq_getElem hj2] at e1
  rw [List.getElem?_eq_getElem hk2] at e2
  have e3 : ((sorted_karr key).map (fun kc => kc.idx.toNat))[j]
      = ((sorted_karr key).map (fun kc => kc.idx.toNat))[k] := by
    rw [Option.some.inj e1, Option.some.inj e2, h]
  exact (hnd.getElem_inj_iff).1 e3

theorem colOf_surj (key : List Int) (c : Nat) (hc : c < key.length) :
    ∃ k, k < key.length ∧ colOf (sorted_karr key) k = c := by
  have h1 : c ∈ (sorted_karr key).map (fun kc => kc.idx.toNat) :=
    (karr_col_perm key).mem_iff.2 (List.mem_range.2 hc)
  obtain ⟨k, hk, hkc⟩ := List.mem_iff_getElem.1 h1
  have hk1 : k < (sorted_karr key).length := by simpa using hk
  refine ⟨k, by rw [← karr_length]; exact hk1, ?_⟩
  have e1 := colOf_eq (sorted_karr key) k hk1
  rw [List.getElem?_eq_getElem hk, hkc] at e1
  exact (Option.some.inj e1).symm

/-! ## Index arithmetic -/

theorem mul_add_div (a b n : Nat) (hb : b < n) : (a * n + b) / n = a := by
  have hn : 0 < n := by omega
  rw [Nat.add_comm, Nat.add_mul_div_right _ _ hn, Nat.div_eq_of_lt hb, Nat.zero_add]

theorem mul_add_mod (a b n : Nat) (hb : b < n) : (a * n + b) % n = b := by
  rw [Nat.add_comm, Nat.add_mul_mod_self_right, Nat.mod_eq_of_lt hb]

theorem mul_add_eq_iff (a b n i : Nat) (hb : b < n) :
    a * n + b = i ↔ a = i / n ∧ b = i % n := by
  constructor
  · intro h
    subst h
    exact ⟨(mul_add_div a b n hb).symm, (mul_add_mod a b n hb).symm⟩
  · rintro ⟨h1, h2⟩
    rw [h1, h2, Nat.mul_comm]
    exact Nat.div_add_mod i n

theorem mul_add_lt (a b n k : Nat) (ha : a < k) (hb : b < n) : a * n + b < k * n := by
  have h1 : (a + 1) * n ≤ k * n := Nat.mul_le_mul_right n ha
  have h2 : (a + 1) * n = a * n + n := by ring
  omega

theorem le_ceil_mul (n cols : Nat) (hcols : 0 < cols) :
    n ≤ (n + cols - 1) / cols * cols := by
  have h1 := Nat.div_add_mod (n + cols - 1) cols
  have h2 := Nat.mod_lt (n + cols - 1) hcols
  have h3 : cols * ((n + cols - 1) / cols) = (n + cols - 1) / cols * cols := Nat.mul_comm _ _
  omega

theorem ceil_mul_lt (n cols : Nat) (hcols : 0 < cols) :
    (n + cols - 1) / cols * cols < n + cols := by
  have h1 := Nat.div_add_mod (n + cols - 1) cols
  have h3 : cols * ((n + cols - 1) / cols) = (n + cols - 1) / cols * cols := Nat.mul_comm _ _
  omega

/-! ## The loops of `encryption` -/

theorem fill_rowwise_spec (text : List Int) (cols : Nat) (hcols : 0 < cols) :
    ∃ m, fill_rowwise text cols (alloc_matrix ((text.length + cols - 1) / cols) cols) = some m ∧
      m.Shape ((text.length + cols - 1) / cols) cols ∧
      ∀ r c, r < (text.length + cols - 1) / cols → c < cols →
        m.read r c = some (text.getD (r * cols + c) 95) := by
  have hInv := forLoop_inv
    (fun i (m : Matrix) =>
      match text[i]? with
      | none => none
      | some ch => m.write (i / cols) (i % cols) ch)
    (fun i m => m.Shape ((text.length + cols - 1) / cols) cols ∧
      ∀ r c, r < (text.length + cols - 1) / cols → c < cols →
        m.read r c = some (if r * cols + c < i then text.getD (r * cols + c) 95 else 95))
    text.length (alloc_matrix ((text.length + cols - 1) / cols) cols)
    ⟨alloc_shape _ _, fun r c hr hc => by simp [alloc_read _ _ r c hr hc]⟩
    (by
      intro i m hi ⟨hshape, hcells⟩
      have hrow : i / cols < (text.length + cols - 1) / cols := by
        rw [Nat.div_lt_iff_lt_mul hcols]
        have := le_ceil_mul text.length cols hcols
        omega
      have hcol : i % cols < cols := Nat.mod_lt _ hcols
      obtain ⟨m1, hw, hshape1, hread1⟩ :=
        Matrix.write_spec m _ cols (i / cols) (i % cols) (text[i]) hshape hrow hcol
      refine ⟨m1, ?_, hshape1, ?_⟩
      · simp only [List.getElem?_eq_getElem hi]
        exact hw
      · intro r c hr hc
        rw [hread1, hcells r c hr hc]
        by_cases he : r * cols + c = i
        · have he1 := (mul_add_eq_iff r c cols i hc).1 he
          have hlt : r * cols + c < i + 1 := by omega
          simp only [he1.1, he1.2, and_self, if_true]
          rw [← he1.1, ← he1.2, if_pos hlt, he, List.getD_eq_getElem?_getD,
            List.getElem?_eq_getElem hi]
          rfl
        · have he1 : ¬ (r = i / cols ∧ c = i % cols) :=
            fun h => he ((mul_add_eq_iff r c cols i hc).2 h)
          rw [if_neg he1]
          by_cases hlt : r * cols + c < i
          · have hlt1 : r * cols + c < i + 1 := by omega
            rw [if_pos hlt, if_pos hlt1]
          · have hlt1 : ¬ r * cols + c < i + 1 := by omega
            rw [if_neg hlt, if_neg hlt1])
  obtain ⟨m, hm, hshape, hcells⟩ := hInv
  refine ⟨m, hm, hshape, ?_⟩
  intro r c hr hc
  rw [hcells r c hr hc]
  by_cases hlt : r * cols + c < text.length
  · rw [if_pos hlt]
  · rw [if_neg hlt, List.getD_eq_getElem?_getD, List.getElem?_eq_none (by omega)]
    rfl

theorem read_columns_prefix (m : Matrix) (key : List Int) (rows n : Nat)
    (hn : n ≤ key.length) (hs : m.Shape rows key.length) :
    ∃ st, read_columns m (sorted_karr key) rows n
        (List.replicate (rows * key.length + 1) 0, 0) = some st ∧
      BufInv (rows * key.length + 1) (cipherAt m (sorted_karr key) rows) st (n * rows) := by
  exact forLoop_inv
    (fun k (st : List Int × Nat) =>
      match (sorted_karr key)[k]? with
      | none => none
      | some kc =>
        let col := kc.idx.toNat
        forLoop rows (fun r st =>
          match m.read r col with
          | none => none
          | some v => emit st v) st)
    (fun k st => BufInv (rows * key.length + 1) (cipherAt m (sorted_karr key) rows) st (k * rows))
    n (List.replicate (rows * key.length + 1) 0, 0)
    (by simpa using bufInv_init _ _)
    (by
      intro k st hkn hinv
      have hk : k < key.length := by omega
      have hk1 : k < (sorted_karr key).length := by rw [karr_length]; exact hk
      have hcol : ((sorted_karr key)[k]).idx.toNat = colOf (sorted_karr key) k := by
        simp [colOf, List.getElem?_eq_getElem hk1]
      have hcollt := colOf_lt key k hk
      simp only [List.getElem?_eq_getElem hk1, hcol]
      have hInner := forLoop_inv
        (fun r (st : List Int × Nat) =>
          match m.read r (colOf (sorted_karr key) k) with
          | none => none
          | some v => emit st v)
        (fun r st => BufInv (rows * key.length + 1) (cipherAt m (sorted_karr key) rows) st
          (k * rows + r))
        rows st (by simpa using hinv)
        (by
          intro r st1 hr hinv1
          have hread := Matrix.read_some m rows key.length r _ hs hr hcollt
          simp only [hread]
          have hlt : k * rows + r < rows * key.length + 1 := by
            have := mul_add_lt k r rows key.length hk hr
            rw [Nat.mul_comm key.length rows] at this
            omega
          exact emit_spec _ _ st1 (k * rows + r) _ hinv1 hlt
            (by simp [cipherAt, mul_add_div k r rows hr, mul_add_mod k r rows hr]))
      obtain ⟨st2, hst2, hinv2⟩ := hInner
      refine ⟨st2, hst2, ?_⟩
      have e : (k + 1) * rows = k * rows + rows := by ring
      rw [e]; exact hinv2)

theorem read_columns_spec (m : Matrix) (key : List Int) (rows : Nat)
    (hs : m.Shape rows key.length) :
    ∃ st, read_columns m (sorted_karr key) rows key.length
        (List.replicate (rows * key.length + 1) 0, 0) = some st ∧
      BufInv (rows * key.length + 1) (cipherAt m (sorted_karr key) rows) st
        (rows * key.length) := by
  obtain ⟨st, hst, hinv⟩ := read_columns_prefix m key rows key.length (le_refl _) hs
  refine ⟨st, hst, ?_⟩
  rw [Nat.mul_comm key.length rows] at hinv
  exact hinv

theorem encrypt_core_spec (text key : List Int) (hkey : 0 < key.length) :
    ∃ res, encrypt_core text key = some res ∧
      res.text = text ∧ res.key = key ∧
      res.rows = (text.length + key.length - 1) / key.length ∧ res.cols = key.length ∧
      res.karr = sorted_karr key ∧
      res.matrix.Shape res.rows res.cols ∧
      (∀ r c, r < res.rows → c < res.cols →
        res.matrix.read r c = some (text.getD (r * res.cols + c) 95)) ∧
      res.cipher = (List.range (res.rows * res.cols)).map
        (cipherAt res.matrix res.karr res.rows) := by
  obtain ⟨m, hm, hshape, hcells⟩ := fill_rowwise_spec text key.length hkey
  obtain ⟨st, hst, hbuf⟩ := read_columns_spec m key _ hshape
  have hterm := terminate_spec _ _ st _ hbuf (Nat.lt_succ_self _)
  refine ⟨EncodeResult.mk text key ((text.length + key.length - 1) / key.length) key.length m
    (sorted_karr key) ((List.range ((text.length + key.length - 1) / key.length * key.length)).map
      (cipherAt m (sorted_karr key) ((text.length + key.length - 1) / key.length))),
    ?_, rfl, rfl, rfl, rfl, rfl, hshape, hcells, rfl⟩
  simp only [encrypt_core, hm, hst, hterm]

theorem length_standardize_loop (s : List Int) : (standardize_loop s).length = s.length := by
  simp [standardize_loop]

theorem encryption_spec (text key : List Int) (hkey : key ≠ []) :
    ∃ res, encryption (some text) (some key) = Except.ok res ∧
      res.text = standardize_loop text ∧ res.key = standardize_loop key ∧
      res.rows = (text.length + key.length - 1) / key.length ∧ res.cols = key.length ∧
      res.karr = sorted_karr (standardize_loop key) ∧
      res.matrix.Shape res.rows res.cols ∧
      (∀ r c, r < res.rows → c < res.cols →
        res.matrix.read r c = some ((standardize_loop text).getD (r * res.cols + c) 95)) ∧
      res.cipher = (List.range (res.rows * res.cols)).map
        (cipherAt res.matrix res.karr res.rows) := by
  have hlen : 0 < (standardize_loop key).length := by
    rw [length_standardize_loop]
    exact List.length_pos.2 hkey
  obtain ⟨res, hres, h1, h2, h3, h4, h5, h6, h7, h8⟩ :=
    encrypt_core_spec (standardize_loop text) (standardize_loop key) hlen
  refine ⟨res, ?_, h1, h2, ?_, ?_, h5, h6, h7, h8⟩
  · have hne : ¬ (standardize_loop key).length = 0 := by omega
    simp only [encryption, hne, if_false, hres]
  · rw [h3, length_standardize_loop, length_standardize_loop]
  · rw [h4, length_standardize_loop]

/-! ## The loops of `decryption` -/

theorem fill_step (cipher key : List Int) (rows k r : Nat) (st : Matrix × Nat)
    (hk : k < key.length) (hr : r < rows) (hinv : FillInv cipher key rows (k * rows + r) st) :
    ∃ st1, (if st.2 < cipher.length then
          match cipher[st.2]? with
          | none => none
          | some v =>
            match st.1.write r (colOf (sorted_karr key) k) v with
            | none => none
            | some m1 => some (m1, st.2 + 1)
        else
          match st.1.write r (colOf (sorted_karr key) k) 95 with
          | none => none
          | some m1 => some (m1, st.2)) = some st1 ∧
      FillInv cipher key rows (k * rows + r + 1) st1 := by
  obtain ⟨hshape, hpos, hcells⟩ := hinv
  have hcollt := colOf_lt key k hk
  -- the value written and the next read position
  have key_fact : ∀ (v : Int) (p : Nat) (m1 : Matrix),
      v = cipher.getD (k * rows + r) 95 → p = min (k * rows + r + 1) cipher.length →
      m1.Shape rows key.length →
      (∀ r1 c1, m1.read r1 c1
        = if r1 = r ∧ c1 = colOf (sorted_karr key) k then some v else st.1.read r1 c1) →
      FillInv cipher key rows (k * rows + r + 1) (m1, p) := by
    intro v p m1 hv hp hshape1 hread1
    refine ⟨hshape1, hp, ?_⟩
    intro j r1 hr1 hlt
    rw [hread1]
    by_cases he : j * rows + r1 = k * rows + r
    · have h1 := (mul_add_eq_iff j r1 rows _ hr1).1 he
      rw [mul_add_div k r rows hr, mul_add_mod k r rows hr] at h1
      rw [h1.1, h1.2]
      simp [hv]
    · have hlt1 : j * rows + r1 < k * rows + r := by omega
      have hjk : j < key.length := by
        by_contra hcon
        have h2 : (k + 1) * rows ≤ j * rows := Nat.mul_le_mul_right rows (by omega)
        have h3 : (k + 1) * rows = k * rows + rows := by ring
        omega
      have hneg : ¬ (r1 = r ∧ colOf (sorted_karr key) j = colOf (sorted_karr key) k) := by
        rintro ⟨h4, h5⟩
        have := colOf_inj key j k hjk hk h5
        subst this; subst h4
        exact he rfl
      rw [if_neg hneg]
      exact hcells j r1 hr1 hlt1
  by_cases hlt : st.2 < cipher.length
  · have ht : k * rows + r < cipher.length := by omega
    have hp : st.2 = k * rows + r := by omega
    obtain ⟨m1, hw, hshape1, hread1⟩ :=
      Matrix.write_spec st.1 rows key.length r _ (cipher[st.2]) hshape hr hcollt
    refine ⟨(m1, st.2 + 1), ?_, ?_⟩
    · simp only [hlt, if_true, List.getElem?_eq_getElem hlt, hw]
    · refine key_fact _ _ m1 ?_ (by omega) hshape1 hread1
      rw [List.getD_eq_getElem?_getD, ← hp, List.getElem?_eq_getElem hlt]
      rfl
  · have ht : cipher.length ≤ k * rows + r := by omega
    obtain ⟨m1, hw, hshape1, hread1⟩ :=
      Matrix.write_spec st.1 rows key.length r _ 95 hshape hr hcollt
    refine ⟨(m1, st.2), ?_, ?_⟩
    · simp only [hlt, if_false, hw]
    · refine key_fact _ _ m1 ?_ (by omega) hshape1 hread1
      rw [List.getD_eq_getElem?_getD, List.getElem?_eq_none ht]
      rfl

theorem fill_columns_prefix (cipher key : List Int) (rows n : Nat) (hn : n ≤ key.length) :
    ∃ st, fill_columns cipher (sorted_karr key) rows n
        (alloc_matrix rows key.length, 0) = some st ∧
      FillInv cipher key rows (n * rows) st := by
  exact forLoop_inv
    (fun k (st : Matrix × Nat) =>
      match (sorted_karr key)[k]? with
      | none => none
      | some kc =>
        let col := kc.idx.toNat
        forLoop rows (fun r st =>
          if st.2 < cipher.length then
            match cipher[st.2]? with
            | none => none
            | some v =>
              match st.1.write r col v with
              | none => none
              | some m1 => some (m1, st.2 + 1)
          else
            match st.1.write r col 95 with
            | none => none
            | some m1 => some (m1, st.2)) st)
    (fun k st => FillInv cipher key rows (k * rows) st)
    n (alloc_matrix rows key.length, 0)
    ⟨alloc_shape _ _, by simp, fun j r _ h => by omega⟩
    (by
      intro k st hkn hinv
      have hk : k < key.length := by omega
      have hk1 : k < (sorted_karr key).length := by rw [karr_length]; exact hk
      have hcol : ((sorted_karr key)[k]).idx.toNat = colOf (sorted_karr key) k := by
        simp [colOf, List.getElem?_eq_getElem hk1]
      simp only [List.getElem?_eq_getElem hk1, hcol]
      have hInner := forLoop_inv
        (fun r (st : Matrix × Nat) =>
          if st.2 < cipher.length then
            match cipher[st.2]? with
            | none => none
            | some v =>
              match st.1.write r (colOf (sorted_karr key) k) v with
              | none => none
              | some m1 => some (m1, st.2 + 1)
          else
            match st.1.write r (colOf (sorted_karr key) k) 95 with
            | none => none
            | some m1 => some (m1, st.2))
        (fun r st => FillInv cipher key rows (k * rows + r) st)
        rows st (by simpa using hinv)
        (fun r st1 hr hinv1 => fill_step cipher key rows k r st1 hk hr hinv1)
      obtain ⟨st2, hst2, hinv2⟩ := hInner
      refine ⟨st2, hst2, ?_⟩
      have e : (k + 1) * rows = k * rows + rows := by ring
      rw [e]; exact hinv2)

theorem fill_columns_spec (cipher key : List Int) (rows : Nat) :
    ∃ st, fill_columns cipher (sorted_karr key) rows key.length
        (alloc_matrix rows key.length, 0) = some st ∧
      st.1.Shape rows key.length ∧
      ∀ j r, j < key.length → r < rows →
        st.1.read r (colOf (sorted_karr key) j) = some (cipher.getD (j * rows + r) 95) := by
  obtain ⟨st, hst, hshape, _, hcells⟩ :=
    fill_columns_prefix cipher key rows key.length (le_refl _)
  refine ⟨st, hst, hshape, ?_⟩
  intro j r hj hr
  exact hcells j r hr (mul_add_lt j r rows key.length hj hr)

theorem read_rows_prefix (m : Matrix) (rows cols n : Nat) (hn : n ≤ rows)
    (hs : m.Shape rows cols) :
    ∃ st, read_rows m n cols (List.replicate (rows * cols + 1) 0, 0) = some st ∧
      BufInv (rows * cols + 1) (plainAt m cols) st (n * cols) := by
  exact forLoop_inv
    (fun r (st : List Int × Nat) =>
      forLoop cols (fun c st =>
        match m.read r c with
        | none => none
        | some ch => emit st (if ch = 95 then 32 else ch)) st)
    (fun r st => BufInv (rows * cols + 1) (plainAt m cols) st (r * cols))
    n (List.replicate (rows * cols + 1) 0, 0)
    (by simpa using bufInv_init _ _)
    (by
      intro r st hrn hinv
      have hr : r < rows := by omega
      have hInner := forLoop_inv
        (fun c (st : List Int × Nat) =>
          match m.read r c with
          | none => none
          | some ch => emit st (if ch = 95 then 32 else ch))
        (fun c st => BufInv (rows * cols + 1) (plainAt m cols) st (r * cols + c))
        cols st (by simpa using hinv)
        (by
          intro c st1 hc hinv1
          have hread := Matrix.read_some m rows cols r c hs hr hc
          simp only [hread]
          have hlt : r * cols + c < rows * cols + 1 := by
            have := mul_add_lt r c cols rows hr hc
            omega
          exact emit_spec _ _ st1 (r * cols + c) _ hinv1 hlt
            (by simp [plainAt, mul_add_div r c cols hc, mul_add_mod r c cols hc]))
      obtain ⟨st2, hst2, hinv2⟩ := hInner
      refine ⟨st2, hst2, ?_⟩
      have e : (r + 1) * cols = r * cols + cols := by ring
      show BufInv (rows * cols + 1) (plainAt m cols) st2 ((r + 1) * cols)
      rw [e]; exact hinv2)

theorem read_rows_spec (m : Matrix) (rows cols : Nat) (hs : m.Shape rows cols) :
    ∃ st, read_rows m rows cols (List.replicate (rows * cols + 1) 0, 0) = some st ∧
      BufInv (rows * cols + 1) (plainAt m cols) st (rows * cols) :=
  read_rows_prefix m rows cols rows (le_refl _) hs

/-- The row count computed by `decryption` for a ciphertext of length `m`. -/
theorem decrypt_rows_eq (m cols : Nat) :
    (if m % cols ≠ 0 then (m + cols - 1) / cols else m / cols) = (m + cols - 1) / cols := by
  by_cases h : m % cols = 0
  · simp only [h, ne_eq, not_true_eq_false, if_false]
    rcases Nat.eq_zero_or_pos cols with hc | hc
    · subst hc; simp
    · obtain ⟨q, hq⟩ := Nat.dvd_of_mod_eq_zero h
      subst hq
      rw [Nat.mul_div_cancel_left q hc]
      have e : cols * q + cols - 1 = q * cols + (cols - 1) := by
        rw [Nat.mul_comm]; omega
      rw [e, mul_add_div q (cols - 1) cols (by omega)]
  · simp [h]

theorem decrypt_core_spec (cipher key : List Int) :
    ∃ res, decrypt_core cipher key = some res ∧
      res.key = key ∧
      res.rows = (cipher.length + key.length - 1) / key.length ∧ res.cols = key.length ∧
      res.karr = sorted_karr key ∧
      res.warning = decide (cipher.length % key.length ≠ 0) ∧
      res.matrix.Shape res.rows res.cols ∧
      (∀ j r, j < res.cols → r < res.rows →
        res.matrix.read r (colOf res.karr j) = some (cipher.getD (j * res.rows + r) 95)) ∧
      res.plain = (List.range (res.rows * res.cols)).map (plainAt res.matrix res.cols) := by
  obtain ⟨mst, hmst, hshape, hcells⟩ :=
    fill_columns_spec cipher key ((cipher.length + key.length - 1) / key.length)
  obtain ⟨st, hst, hbuf⟩ := read_rows_spec mst.1 _ key.length hshape
  have hterm := terminate_spec _ _ st _ hbuf (Nat.lt_succ_self _)
  refine ⟨DecodeResult.mk key ((cipher.length + key.length - 1) / key.length) key.length mst.1
    (sorted_karr key) ((List.range ((cipher.length + key.length - 1) / key.length * key.length)).map
      (plainAt mst.1 key.length)) (decide (cipher.length % key.length ≠ 0)),
    ?_, rfl, rfl, rfl, rfl, rfl, hshape, hcells, rfl⟩
  simp only [decrypt_core, decrypt_rows_eq, hmst, hst, hterm]

theorem decryption_spec (cipher key : List Int) (hkey : key ≠ []) :
    ∃ res, decryption (some cipher) (some key) = Except.ok res ∧
      res.key = standardize_loop key ∧
      res.rows = (cipher.length + key.length - 1) / key.length ∧ res.cols = key.length ∧
      res.karr = sorted_karr (standardize_loop key) ∧
      res.warning = decide (cipher.length % key.length ≠ 0) ∧
      res.matrix.Shape res.rows res.cols ∧
      (∀ j r, j < res.cols → r < res.rows →
        res.matrix.read r (colOf res.karr j) = some (cipher.getD (j * res.rows + r) 95)) ∧
      res.plain = (List.range (res.rows * res.cols)).map (plainAt res.matrix res.cols) := by
  have hlen : 0 < (standardize_loop key).length := by
    rw [length_standardize_loop]
    exact List.length_pos.2 hkey
  obtain ⟨res, hres, h1, h2, h3, h4, h5, h6, h7, h8⟩ :=
    decrypt_core_spec cipher (standardize_loop key)
  refine ⟨res, ?_, h1, ?_, ?_, h4, ?_, h6, h7, h8⟩
  · have hne : ¬ (standardize_loop key).length = 0 := by omega
    simp only [decryption, hne, if_false, hres]
  · rw [h2, length_standardize_loop]
  · rw [h3, length_standardize_loop]
  · rw [h5, length_standardize_loop]

/-! ## Decoding what was encoded -/

theorem ceil_of_mul (rows cols : Nat) (hcols : 0 < cols) :
    (rows * cols + cols - 1) / cols = rows := by
  have e : rows * cols + cols - 1 = rows * cols + (cols - 1) := by omega
  rw [e, mul_add_div rows (cols - 1) cols (by omega)]

theorem getD_range_map (g : Nat → Int) (n i : Nat) (hi : i < n) :
    ((List.range n).map g).getD i 95 = g i := by
  simp [List.getD_eq_getElem?_getD, List.getElem?_range, hi]

/-- Decoding the ciphertext of `text` under `key2`, when `key2` standardizes to
the same key as `key`: the plaintext lists, for every cell of the grid in
row-major order, the standardized text character (filler past its end) with
`'_'` turned into `' '`. -/
theorem decode_encode (text key key2 : List Int) (hkey : key ≠ [])
    (hk2 : standardize_loop key2 = standardize_loop key) :
    ∃ enc dec, encryption (some text) (some key) = Except.ok enc ∧
      decryption (some enc.cipher) (some key2) = Except.ok dec ∧
      dec.plain = (List.range ((text.length + key.length - 1) / key.length * key.length)).map
        (fun i => if (standardize_loop text).getD i 95 = 95 then 32
          else (standardize_loop text).getD i 95) := by
  obtain ⟨enc, henc, -, -, erows, ecols, ekarr, eshape, ecells, ecipher⟩ :=
    encryption_spec text key hkey
  have hcols : 0 < key.length := List.length_pos.2 hkey
  have hlen2 : key2.length = key.length := by
    rw [← length_standardize_loop key2, hk2, length_standardize_loop]
  have hkey2 : key2 ≠ [] := by
    intro h; rw [h] at hlen2; simp at hlen2; omega
  obtain ⟨dec, hdec, -, drows, dcols, dkarr, -, dshape, dcells, dplain⟩ :=
    decryption_spec enc.cipher key2 hkey2
  have hclen : enc.cipher.length = enc.rows * key.length := by
    rw [ecipher, ecols]; simp
  rw [hlen2] at drows dcols
  rw [hclen, ceil_of_mul _ _ hcols] at drows
  rw [hk2] at dkarr
  refine ⟨enc, dec, henc, hdec, ?_⟩
  rw [dplain, drows, dcols, ← erows]
  apply List.map_congr_left
  intro i hi
  have hi1 : i < enc.rows * key.length := List.mem_range.1 hi
  have hr : i / key.length < enc.rows := (Nat.div_lt_iff_lt_mul hcols).2 hi1
  have hc : i % key.length < key.length := Nat.mod_lt _ hcols
  have hlk : (standardize_loop key).length = key.length := length_standardize_loop key
  obtain ⟨j, hj, hjc⟩ := colOf_surj (standardize_loop key) (i % key.length) (by rw [hlk]; exact hc)
  rw [hlk] at hj
  have h1 := dcells j (i / key.length) (by rw [dcols]; exact hj) (by rw [drows]; exact hr)
  rw [dkarr, hjc, drows] at h1
  have hjr : j * enc.rows + i / key.length < enc.rows * key.length := by
    have := mul_add_lt j (i / key.length) enc.rows key.length hj hr
    rw [Nat.mul_comm key.length enc.rows] at this
    exact this
  have h2 : enc.cipher.getD (j * enc.rows + i / key.length) 95
      = enc.matrix.cell (i / key.length) (i % key.length) := by
    rw [ecipher, ecols, getD_range_map _ _ _ hjr]
    simp only [cipherAt, mul_add_div j _ enc.rows hr, mul_add_mod j _ enc.rows hr, ekarr, hjc]
  have h3 := ecells (i / key.length) (i % key.length) hr (by rw [ecols]; exact hc)
  have h4 : i / key.length * key.length + i % key.length = i := by
    rw [Nat.mul_comm]; exact Nat.div_add_mod i key.length
  rw [ecols, h4] at h3
  have h5 : enc.matrix.cell (i / key.length) (i % key.length)
      = (standardize_loop text).getD i 95 := by
    simp [Matrix.cell, h3]
  have h6 : dec.matrix.cell (i / key.length) (i % key.length)
      = (standardize_loop text).getD i 95 := by
    unfold Matrix.cell
    rw [h1]
    exact h2.trans h5
  simp only [plainAt, h6]

theorem standardize_step_idem (c : Int) :
    standardize_step (standardize_step c) = standardize_step c := by
  unfold standardize_step to_lower_char
  dsimp only
  split_ifs <;> omega

theorem standardize_loop_idem (s : List Int) :
    standardize_loop (standardize_loop s) = standardize_loop s := by
  simp [standardize_loop, standardize_step_idem]

theorem unfill_standardize (c : Int) (hc : c = 32 ∨ (97 ≤ c ∧ c ≤ 122)) :
    (if standardize_step c = 95 then 32 else standardize_step c) = c := by
  unfold standardize_step to_lower_char
  dsimp only
  split_ifs <;> omega

/-- C1 (round trip): for a text of lowercase letters (`97..122`) and spaces
(`32`) and a non-empty key, `encryption` succeeds and `decryption` of its
ciphertext with the same key (as given, or as `encryption` left it after
standardizing it in place) succeeds with the plaintext equal to the text
followed by spaces up to `ceil(len(text)/len(key)) * len(key)` characters. -/
theorem C1_round_trip (text key : List Int) (hkey : key ≠ [])
    (htext : ∀ c ∈ text, c = 32 ∨ (97 ≤ c ∧ c ≤ 122)) :
    ∃ enc dec dec2, encryption (some text) (some key) = Except.ok enc ∧
      decryption (some enc.cipher) (some key) = Except.ok dec ∧
      decryption (some enc.cipher) (some enc.key) = Except.ok dec2 ∧
      dec.plain = text ++ List.replicate
        ((text.length + key.length - 1) / key.length * key.length - text.length) 32 ∧
      dec2.plain = dec.plain ∧
      dec.plain.length = (text.length + key.length - 1) / key.length * key.length := by
  obtain ⟨enc, dec, henc, hdec, hplain⟩ := decode_encode text key key hkey rfl
  obtain ⟨enc2, dec2, henc2, hdec2, hplain2⟩ :=
    decode_encode text key (standardize_loop key) hkey (standardize_loop_idem key)
  have hee : enc2 = enc := by
    rw [henc] at henc2
    exact (Except.ok.inj henc2).symm
  subst hee
  obtain ⟨enc3, henc3, -, ekey, -⟩ := encryption_spec text key hkey
  have hee : enc3 = enc2 := by
    rw [henc] at henc3
    exact (Except.ok.inj henc3).symm
  subst hee
  have hcols : 0 < key.length := List.length_pos.2 hkey
  have hge := le_ceil_mul text.length key.length hcols
  refine ⟨enc3, dec, dec2, henc, hdec, by rw [ekey]; exact hdec2, ?_, by rw [hplain, hplain2],
    by rw [hplain]; simp⟩
  rw [hplain]
  apply List.ext_getElem?
  intro i
  by_cases hi : i < text.length
  · have hi2 : i < (text.length + key.length - 1) / key.length * key.length := by omega
    have hmem : text[i] ∈ text := List.getElem_mem hi
    have hconv := unfill_standardize (text[i]) (htext _ hmem)
    have hget : (standardize_loop text).getD i 95 = standardize_step (text[i]) := by
      simp [standardize_loop, List.getD_eq_getElem?_getD, List.getElem?_eq_getElem hi]
    simp only [List.getElem?_map, List.getElem?_range hi2, Option.map_some', hget, hconv,
      List.getElem?_append_left hi, List.getElem?_eq_getElem hi]
  · by_cases hi2 : i < (text.length + key.length - 1) / key.length * key.length
    · have hget : (standardize_loop text).getD i 95 = 95 := by
        rw [List.getD_eq_getElem?_getD,
          List.getElem?_eq_none (by rw [length_standardize_loop]; omega)]
        rfl
      have hr : i - text.length
          < (text.length + key.length - 1) / key.length * key.length - text.length := by omega
      simp only [List.getElem?_map, List.getElem?_range hi2, Option.map_some', hget, if_true,
        List.getElem?_append_right (Nat.le_of_not_lt hi), List.getElem?_replicate, hr]
    · have h1 : ((List.range ((text.length + key.length - 1) / key.length * key.length)).map
          (fun i => if (standardize_loop text).getD i 95 = 95 then 32
            else (standardize_loop text).getD i 95)).length ≤ i := by
        simp only [List.length_map, List.length_range]; omega
      have h2 : (text ++ List.replicate
          ((text.length + key.length - 1) / key.length * key.length - text.length) 32).length
          ≤ i := by
        simp only [List.length_append, List.length_replicate]; omega
      rw [List.getElem?_eq_none h1, List.getElem?_eq_none h2]

/-- Witness of C1: the text "hello world" under the key "zebra". -/
theorem C1_round_trip_witness :
    ∃ enc dec dec2, encryption (some (str "hello world")) (some (str "zebra")) = Except.ok enc ∧
      decryption (some enc.cipher) (some (str "zebra")) = Except.ok dec ∧
      decryption (some enc.cipher) (some enc.key) = Except.ok dec2 ∧
      dec.plain = str "hello world" ++ List.replicate
        (((str "hello world").length + (str "zebra").length - 1) / (str "zebra").length
          * (str "zebra").length - (str "hello world").length) 32 ∧
      dec2.plain = dec.plain ∧
      dec.plain.length = ((str "hello world").length + (str "zebra").length - 1)
        / (str "zebra").length * (str "zebra").length :=
  C1_round_trip (str "hello world") (str "zebra") (by decide) (by decide)

/-- The row count `(n + cols - 1) / cols` is `ceil(n / cols)`: the least `q`
with `n ≤ q * cols`. -/
theorem ceil_le_iff (n cols q : Nat) (hcols : 0 < cols) :
    (n + cols - 1) / cols ≤ q ↔ n ≤ q * cols := by
  constructor
  · intro h
    have h1 := le_ceil_mul n cols hcols
    have h2 : (n + cols - 1) / cols * cols ≤ q * cols := Nat.mul_le_mul_right cols h
    omega
  · intro h
    have h1 : (n + cols - 1) / cols < q + 1 := by
      rw [Nat.div_lt_iff_lt_mul hcols]
      have h2 : (q + 1) * cols = q * cols + cols := by ring
      omega
    omega

/-- C2 (ciphertext length): for every text and non-empty key `encryption`
succeeds with a ciphertext of exactly `rows * cols` characters, where
`cols = len(key)` and `rows = (len(text) + cols - 1) / cols` is
`ceil(len(text) / cols)` (the least `q` with `len(text) ≤ q * cols`); the
length is at least `len(text)`, at most `len(text) + cols - 1`, and for the empty
text `rows = 0` and the ciphertext is empty. -/
theorem C2_cipher_length (text key : List Int) (hkey : key ≠ []) :
    ∃ enc, encryption (some text) (some key) = Except.ok enc ∧
      enc.cols = key.length ∧
      enc.rows = (text.length + key.length - 1) / key.length ∧
      (∀ q, enc.rows ≤ q ↔ text.length ≤ q * key.length) ∧
      enc.cipher.length = enc.rows * key.length ∧
      text.length ≤ enc.cipher.length ∧
      enc.cipher.length ≤ text.length + (key.length - 1) ∧
      (text = [] → enc.rows = 0 ∧ enc.cipher = []) := by
  obtain ⟨enc, henc, -, -, erows, ecols, -, -, -, ecipher⟩ := encryption_spec text key hkey
  have hcols : 0 < key.length := List.length_pos.2 hkey
  have hlen : enc.cipher.length = enc.rows * key.length := by
    rw [ecipher, ecols]; simp
  have h1 := le_ceil_mul text.length key.length hcols
  have h2 := ceil_mul_lt text.length key.length hcols
  refine ⟨enc, henc, ecols, erows, ?_, hlen, ?_, ?_, ?_⟩
  · intro q
    rw [erows]
    exact ceil_le_iff text.length key.length q hcols
  · rw [hlen, erows]; exact h1
  · rw [hlen, erows]; omega
  · intro ht
    have hr : enc.rows = 0 := by
      rw [erows, ht]
      simp only [List.length_nil, Nat.zero_add]
      exact Nat.div_eq_of_lt (by omega)
    refine ⟨hr, ?_⟩
    apply List.eq_nil_of_length_eq_zero
    rw [hlen, hr, Nat.zero_mul]

/-- Witness of C2: the text "hello world" under the key "zebra". -/
theorem C2_cipher_length_witness :
    ∃ enc, encryption (some (str "hello world")) (some (str "zebra")) = Except.ok enc ∧
      enc.cols = (str "zebra").length ∧
      enc.rows = ((str "hello world").length + (str "zebra").length - 1) / (str "zebra").length ∧
      (∀ q, enc.rows ≤ q ↔ (str "hello world").length ≤ q * (str "zebra").length) ∧
      enc.cipher.length = enc.rows * (str "zebra").length ∧
      (str "hello world").length ≤ enc.cipher.length ∧
      enc.cipher.length ≤ (str "hello world").length + ((str "zebra").length - 1) ∧
      (str "hello world" = [] → enc.rows = 0 ∧ enc.cipher = []) :=
  C2_cipher_length (str "hello world") (str "zebra") (by decide)

/-- C3 (ranked key is a permutation): for a key of length `L ≥ 1` the sorted
array `karr` of `encryption`, and that of `decryption`, has `L` entries whose
`idx` fields are a rearrangement of `0, 1, ..., L-1`, so each of these values
occurs exactly once. -/
theorem C3_ranked_key_perm (text key : List Int) (hkey : key ≠ []) :
    ∃ enc dec, encryption (some text) (some key) = Except.ok enc ∧
      decryption (some text) (some key) = Except.ok dec ∧
      dec.karr = enc.karr ∧
      enc.karr.length = key.length ∧
      (enc.karr.map (fun kc => kc.idx)).Perm ((List.range key.length).map Int.ofNat) ∧
      ∀ i, i < key.length → (enc.karr.map (fun kc => kc.idx)).count (Int.ofNat i) = 1 := by
  obtain ⟨enc, henc, -, -, -, -, ekarr, -⟩ := encryption_spec text key hkey
  obtain ⟨dec, hdec, -, -, -, dkarr, -⟩ := decryption_spec text key hkey
  have hperm := karr_idx_perm (standardize_loop key)
  rw [length_standardize_loop] at hperm
  refine ⟨enc, dec, henc, hdec, by rw [dkarr, ekarr], ?_, by rw [ekarr]; exact hperm, ?_⟩
  · rw [ekarr, karr_length, length_standardize_loop]
  · intro i hi
    rw [ekarr, hperm.count_eq]
    have hnd : ((List.range key.length).map Int.ofNat).Nodup :=
      (List.nodup_range _).map (fun a b h => Int.ofNat.inj h)
    exact List.count_eq_one_of_mem hnd (List.mem_map.2 ⟨i, List.mem_range.2 hi, rfl⟩)

/-- Witness of C3: the key "zebra". -/
theorem C3_ranked_key_perm_witness :
    ∃ enc dec, encryption (some (str "hello world")) (some (str "zebra")) = Except.ok enc ∧
      decryption (some (str "hello world")) (some (str "zebra")) = Except.ok dec ∧
      dec.karr = enc.karr ∧
      enc.karr.length = (str "zebra").length ∧
      (enc.karr.map (fun kc => kc.idx)).Perm
        ((List.range (str "zebra").length).map Int.ofNat) ∧
      ∀ i, i < (str "zebra").length →
        (enc.karr.map (fun kc => kc.idx)).count (Int.ofNat i) = 1 :=
  C3_ranked_key_perm (str "hello world") (str "zebra") (by decide)

/-! ## The order of the sorted key -/

theorem keychar_cmp_le_iff (a b : KeyChar) :
    keychar_cmp a b ≤ 0 ↔ a.ch < b.ch ∨ (a.ch = b.ch ∧ a.idx ≤ b.idx) := by
  unfold keychar_cmp
  split_ifs <;> constructor <;> intro h <;> omega

theorem keychar_cmp_total : IsTotal KeyChar (fun a b => keychar_cmp a b ≤ 0) :=
  ⟨fun a b => by
    simp only [keychar_cmp_le_iff]
    omega⟩

theorem keychar_cmp_trans : IsTrans KeyChar (fun a b => keychar_cmp a b ≤ 0) :=
  ⟨fun a b c => by
    simp only [keychar_cmp_le_iff]
    omega⟩

theorem keychar_cmp_antisymm : IsAntisymm KeyChar (fun a b => keychar_cmp a b ≤ 0) :=
  ⟨fun a b => by
    simp only [keychar_cmp_le_iff]
    intro h1 h2
    cases a
    cases b
    simp only [KeyChar.mk.injEq] at *
    omega⟩

theorem karr_sorted (key : List Int) :
    (sorted_karr key).Pairwise (fun a b => keychar_cmp a b ≤ 0) := by
  haveI := keychar_cmp_total
  haveI := keychar_cmp_trans
  exact List.sorted_insertionSort (fun a b => keychar_cmp a b ≤ 0) (build_karr key)

theorem karr_unique (key : List Int) (l : List KeyChar) (hp : l.Perm (build_karr key))
    (hs : l.Pairwise (fun a b => keychar_cmp a b ≤ 0)) : l = sorted_karr key := by
  haveI := keychar_cmp_antisymm
  have hp2 : l.Perm (sorted_karr key) :=
    hp.trans (List.perm_insertionSort (fun a b => keychar_cmp a b ≤ 0) (build_karr key)).symm
  exact List.eq_of_perm_of_sorted hp2 hs (karr_sorted key)

theorem karr_strict (key : List Int) :
    (sorted_karr key).Pairwise
      (fun a b => a.ch < b.ch ∨ (a.ch = b.ch ∧ a.idx < b.idx)) := by
  have hnd : ((sorted_karr key).map (fun kc => kc.idx)).Nodup :=
    (karr_idx_perm key).nodup_iff.2
      ((List.nodup_range _).map (fun a b h => Int.ofNat.inj h))
  have hne : (sorted_karr key).Pairwise (fun a b => a.idx ≠ b.idx) := by
    have := List.pairwise_map.1 hnd
    exact this
  refine ((karr_sorted key).and hne).imp ?_
  intro a b h
  have h1 := (keychar_cmp_le_iff a b).1 h.1
  have h2 := h.2
  omega

/-- C4 (ranked key order): for a non-empty key the sorted `karr` is ascending by
character with equal characters in ascending original index: all entries, and so
in particular consecutive ones, satisfy `c1 < c2`, or `c1 = c2` and `i1 < i2`.
Every arrangement of the built array that is ascending for `keychar_cmp` is this
one, so the result does not depend on the sorting algorithm; and the key "aab"
ranks as the original indices `[0, 1, 2]`. -/
theorem C4_ranked_key_order (text key : List Int) (hkey : key ≠ []) :
    ∃ enc, encryption (some text) (some key) = Except.ok enc ∧
      enc.karr.Chain' (fun a b => a.ch < b.ch ∨ (a.ch = b.ch ∧ a.idx < b.idx)) ∧
      enc.karr.Pairwise (fun a b => a.ch < b.ch ∨ (a.ch = b.ch ∧ a.idx < b.idx)) ∧
      (∀ l : List KeyChar, l.Perm (build_karr enc.key) →
        l.Pairwise (fun a b => keychar_cmp a b ≤ 0) → l = enc.karr) ∧
      ∃ enc2, encryption (some text) (some (str "aab")) = Except.ok enc2 ∧
        enc2.karr.map (fun kc => kc.idx) = [0, 1, 2] := by
  obtain ⟨enc, henc, -, ekey, -, -, ekarr, -⟩ := encryption_spec text key hkey
  obtain ⟨enc2, henc2, -, -, -, -, ekarr2, -⟩ := encryption_spec text (str "aab") (by decide)
  refine ⟨enc, henc, ?_, ?_, ?_, enc2, henc2, ?_⟩
  · rw [ekarr]; exact (karr_strict _).chain'
  · rw [ekarr]; exact karr_strict _
  · intro l hp hs
    rw [ekey] at hp
    rw [ekarr]
    exact karr_unique _ l hp hs
  · rw [ekarr2]; decide

/-- Witness of C4: the key "banana", which repeats characters. -/
theorem C4_ranked_key_order_witness :
    ∃ enc, encryption (some (str "hello world")) (some (str "banana")) = Except.ok enc ∧
      enc.karr.Chain' (fun a b => a.ch < b.ch ∨ (a.ch = b.ch ∧ a.idx < b.idx)) ∧
      enc.karr.Pairwise (fun a b => a.ch < b.ch ∨ (a.ch = b.ch ∧ a.idx < b.idx)) ∧
      (∀ l : List KeyChar, l.Perm (build_karr enc.key) →
        l.Pairwise (fun a b => keychar_cmp a b ≤ 0) → l = enc.karr) ∧
      ∃ enc2, encryption (some (str "hello world")) (some (str "aab")) = Except.ok enc2 ∧
        enc2.karr.map (fun kc => kc.idx) = [0, 1, 2] :=
  C4_ranked_key_order (str "hello world") (str "banana") (by decide)

/-- C5 (normalizer contract): for every string `s`, `standardize_chars` returns
a string of the same length in which, at every position, an uppercase letter
(`65..90`) became the lowercase letter 32 above it, a space (`32`) became `'_'`
(`95`), and every other character is unchanged. -/
theorem C5_standardize_contract (s : List Int) :
    ∃ t, standardize_chars (some s) = some t ∧ t.length = s.length ∧
      ∀ i (hs : i < s.length) (ht : i < t.length),
        (65 ≤ s[i] ∧ s[i] ≤ 90 → t[i] = s[i] + 32) ∧
        (s[i] = 32 → t[i] = 95) ∧
        (¬ (65 ≤ s[i] ∧ s[i] ≤ 90) → s[i] ≠ 32 → t[i] = s[i]) := by
  refine ⟨standardize_loop s, rfl, length_standardize_loop s, ?_⟩
  intro i hs ht
  have ht : (standardize_loop s)[i] = standardize_step (s[i]) := by
    simp [standardize_loop]
  rw [ht]
  unfold standardize_step to_lower_char
  dsimp only
  refine ⟨?_, ?_, ?_⟩ <;> intros <;> split_ifs <;> omega

/-- C6 (normalization is idempotent): applying `standardize_chars` twice gives
the same as applying it once, for every string and for `NULL`. -/
theorem C6_standardize_idempotent (s : Option (List Int)) :
    standardize_chars (standardize_chars s) = standardize_chars s := by
  cases s with
  | none => rfl
  | some s =>
    show some (standardize_loop (standardize_loop s)) = some (standardize_loop s)
    rw [standardize_loop_idem]

/-- C7 (empty key is rejected): with a present text, `encryption` ends in
`EmptyKey` exactly when the key is empty, and so does `decryption`; with the
empty key no result is produced, with a non-empty key both produce one. -/
theorem C7_empty_key (text key : List Int) :
    (encryption (some text) (some key) = Except.error Error.EmptyKey ↔ key = []) ∧
    (decryption (some text) (some key) = Except.error Error.EmptyKey ↔ key = []) ∧
    encryption (some text) (some []) = Except.error Error.EmptyKey ∧
    decryption (some text) (some []) = Except.error Error.EmptyKey ∧
    encryption (some (str "hello")) (some (str "")) = Except.error Error.EmptyKey ∧
    decryption (some (str "hello")) (some (str "")) = Except.error Error.EmptyKey ∧
    (key ≠ [] → (∃ enc, encryption (some text) (some key) = Except.ok enc) ∧
      ∃ dec, decryption (some text) (some key) = Except.ok dec) := by
  have he : encryption (some text) (some []) = Except.error Error.EmptyKey := rfl
  have hd : decryption (some text) (some []) = Except.error Error.EmptyKey := rfl
  refine ⟨⟨?_, ?_⟩, ⟨?_, ?_⟩, he, hd, rfl, rfl, ?_⟩
  · intro h
    by_contra hkey
    obtain ⟨enc, henc, -⟩ := encryption_spec text key hkey
    rw [henc] at h
    cases h
  · intro h; rw [h]; exact he
  · intro h
    by_contra hkey
    obtain ⟨dec, hdec, -⟩ := decryption_spec text key hkey
    rw [hdec] at h
    cases h
  · intro h; rw [h]; exact hd
  · intro hkey
    obtain ⟨enc, henc, -⟩ := encryption_spec text key hkey
    obtain ⟨dec, hdec, -⟩ := decryption_spec text key hkey
    exact ⟨⟨enc, henc⟩, ⟨dec, hdec⟩⟩

/-- C8 (concrete scenario): encoding "hello world" with the key "zebra"
standardizes the text to "hello_world", uses 3 rows and 5 columns, builds the
grid rows "hello", "_worl", "d____", sorts the key to a, b, e, r, z with original
indices 4, 2, 1, 3, 0, and outputs the columns 4, 2, 1, 3, 0 read top to bottom,
which is "ol_lo_ew_lr_h_d". -/
theorem C8_hello_world_zebra :
    ∃ enc, encryption (some (str "hello world")) (some (str "zebra")) = Except.ok enc ∧
      enc.text = str "hello_world" ∧ enc.key = str "zebra" ∧
      enc.rows = 3 ∧ enc.cols = 5 ∧
      enc.matrix = [str "hello", str "_worl", str "d____"] ∧
      enc.karr.map (fun kc => kc.ch) = str "aberz" ∧
      enc.karr.map (fun kc => kc.idx) = [4, 2, 1, 3, 0] ∧
      enc.cipher = column enc.matrix 4 ++ column enc.matrix 2 ++ column enc.matrix 1
        ++ column enc.matrix 3 ++ column enc.matrix 0 ∧
      enc.cipher = str "ol_lo_ew_lr_h_d" :=
  ⟨EncodeResult.mk (str "hello_world") (str "zebra") 3 5
      [str "hello", str "_worl", str "d____"]
      [KeyChar.mk 97 4, KeyChar.mk 98 2, KeyChar.mk 101 1, KeyChar.mk 114 3, KeyChar.mk 122 0]
      (str "ol_lo_ew_lr_h_d"),
    rfl, by decide, by decide, by decide, by decide, by decide, by decide, by decide,
    by decide, by decide⟩

/-- C9 (decode accepts any ciphertext length): for a ciphertext of any length
`m` and a non-empty key of length `cols`, `decryption` succeeds with
`rows = ceil(m / cols)` (the least `q` with `m ≤ q * cols`) and a plaintext of
exactly `rows * cols` characters. -/
theorem C9_decode_any_length (cipher key : List Int) (hkey : key ≠ []) :
    ∃ dec, decryption (some cipher) (some key) = Except.ok dec ∧
      dec.cols = key.length ∧
      dec.rows = (cipher.length + key.length - 1) / key.length ∧
      (∀ q, dec.rows ≤ q ↔ cipher.length ≤ q * key.length) ∧
      dec.plain.length = dec.rows * key.length := by
  obtain ⟨dec, hdec, -, drows, dcols, -, -, -, -, dplain⟩ := decryption_spec cipher key hkey
  have hcols : 0 < key.length := List.length_pos.2 hkey
  refine ⟨dec, hdec, dcols, drows, ?_, ?_⟩
  · intro q
    rw [drows]
    exact ceil_le_iff cipher.length key.length q hcols
  · rw [dplain, dcols]; simp

/-- Witness of C9: a ciphertext of 17 characters under the 5-character key
"zebra". -/
theorem C9_decode_any_length_witness :
    ∃ dec, decryption (some (str "ol_lo_ew_lr_h_dxx")) (some (str "zebra")) = Except.ok dec ∧
      dec.cols = (str "zebra").length ∧
      dec.rows = ((str "ol_lo_ew_lr_h_dxx").length + (str "zebra").length - 1)
        / (str "zebra").length ∧
      (∀ q, dec.rows ≤ q ↔ (str "ol_lo_ew_lr_h_dxx").length ≤ q * (str "zebra").length) ∧
      dec.plain.length = dec.rows * (str "zebra").length :=
  C9_decode_any_length (str "ol_lo_ew_lr_h_dxx") (str "zebra") (by decide)

/-- C10 (length-mismatch warning): for a ciphertext of length `m` and a
non-empty key of length `cols`, `decryption` prints the warning exactly when
`m % cols ≠ 0`, and returns a plaintext whether or not it does. -/
theorem C10_warning_iff (cipher key : List Int) (hkey : key ≠ []) :
    ∃ dec, decryption (some cipher) (some key) = Except.ok dec ∧
      (dec.warning = true ↔ cipher.length % key.length ≠ 0) := by
  obtain ⟨dec, hdec, -, -, -, -, dwarn, -⟩ := decryption_spec cipher key hkey
  refine ⟨dec, hdec, ?_⟩
  rw [dwarn]
  simp

/-- Witness of C10: a ciphertext of 17 characters under the key "zebra", for
which the warning is printed. -/
theorem C10_warning_iff_witness :
    ∃ dec, decryption (some (str "ol_lo_ew_lr_h_dxy")) (some (str "zebra")) = Except.ok dec ∧
      (dec.warning = true ↔
        (str "ol_lo_ew_lr_h_dxy").length % (str "zebra").length ≠ 0) :=
  C10_warning_iff (str "ol_lo_ew_lr_h_dxy") (str "zebra") (by decide)

/-! ## Absent arguments -/

/-- C11 (absent arguments): `encryption` and `decryption` end in `InvalidInput`
exactly when the text (ciphertext) or the key is `NULL`; the check comes before
the empty-key check, so a `NULL` text with an empty key gives `InvalidInput`;
and `standardize_chars` returns `NULL` for `NULL`. -/
theorem C11_invalid_input (text key : Option (List Int)) :
    (encryption text key = Except.error Error.InvalidInput ↔ (text = none ∨ key = none)) ∧
    (decryption text key = Except.error Error.InvalidInput ↔ (text = none ∨ key = none)) ∧
    encryption none (some []) = Except.error Error.InvalidInput ∧
    decryption none (some []) = Except.error Error.InvalidInput ∧
    encryption none none = Except.error Error.InvalidInput ∧
    decryption none none = Except.error Error.InvalidInput ∧
    standardize_chars none = none := by
  refine ⟨?_, ?_, rfl, rfl, rfl, rfl, rfl⟩
  · cases text with
    | none => exact ⟨fun _ => Or.inl rfl, fun _ => by cases key <;> rfl⟩
    | some t =>
      cases key with
      | none => exact ⟨fun _ => Or.inr rfl, fun _ => rfl⟩
      | some k =>
        constructor
        · intro h
          exfalso
          by_cases hk : k = []
          · subst hk
            have he : encryption (some t) (some []) = Except.error Error.EmptyKey := rfl
            rw [he] at h
            cases h
          · obtain ⟨enc, henc, -⟩ := encryption_spec t k hk
            rw [henc] at h
            cases h
        · rintro (h | h) <;> cases h
  · cases text with
    | none => exact ⟨fun _ => Or.inl rfl, fun _ => by cases key <;> rfl⟩
    | some t =>
      cases key with
      | none => exact ⟨fun _ => Or.inr rfl, fun _ => rfl⟩
      | some k =>
        constructor
        · intro h
          exfalso
          by_cases hk : k = []
          · subst hk
            have he : decryption (some t) (some []) = Except.error Error.EmptyKey := rfl
            rw [he] at h
            cases h
          · obtain ⟨dec, hdec, -⟩ := decryption_spec t k hk
            rw [hdec] at h
            cases h
        · rintro (h | h) <;> cases h

/-! ## Underscores and spaces -/

theorem standardize_same (s t : List Int) (h : SameUpToFiller s t) :
    standardize_loop s = standardize_loop t := by
  unfold SameUpToFiller at h
  induction h with
  | nil => rfl
  | cons hab _ ih =>
    have hstep : ∀ a b : Int, (a = b ∨ (a = 95 ∧ b = 32) ∨ (a = 32 ∧ b = 95)) →
        standardize_step a = standardize_step b := by
      intro a b hab
      rcases hab with h1 | ⟨h1, h2⟩ | ⟨h1, h2⟩
      · rw [h1]
      · rw [h1, h2]; decide
      · rw [h1, h2]; decide
    simp only [standardize_loop, List.map_cons] at ih ⊢
    rw [hstep _ _ hab, ih]

theorem encryption_congr (text text2 key key2 : List Int)
    (ht : standardize_loop text = standardize_loop text2)
    (hk : standardize_loop key = standardize_loop key2) :
    encryption (some text) (some key) = encryption (some text2) (some key2) := by
  simp only [encryption, ht, hk]

theorem decryption_congr (cipher key key2 : List Int)
    (hk : standardize_loop key = standardize_loop key2) :
    decryption (some cipher) (some key) = decryption (some cipher) (some key2) := by
  simp only [decryption, hk]

/-- C12 (underscore/space conflation): for a non-empty key, two texts that
differ only in `'_'` versus `' '` are encrypted to the same result, so to the
same ciphertext; decoding that ciphertext gives a space at every position where
the text has `'_'`, so for a text containing `'_'` it differs from the padded
text.  For "a_b" under the key "k" the decoded plaintext is "a b". -/
theorem C12_underscore_conflation (text text2 key : List Int) (hkey : key ≠ [])
    (hsame : SameUpToFiller text text2) :
    ∃ enc dec, encryption (some text) (some key) = Except.ok enc ∧
      encryption (some text2) (some key) = Except.ok enc ∧
      decryption (some enc.cipher) (some key) = Except.ok dec ∧
      (∀ i, i < text.length → text[i]? = some 95 → dec.plain[i]? = some 32) ∧
      (95 ∈ text → dec.plain ≠ text ++ List.replicate
        ((text.length + key.length - 1) / key.length * key.length - text.length) 32) ∧
      ∃ enc3 dec3, encryption (some (str "a_b")) (some (str "k")) = Except.ok enc3 ∧
        encryption (some (str "a b")) (some (str "k")) = Except.ok enc3 ∧
        decryption (some enc3.cipher) (some (str "k")) = Except.ok dec3 ∧
        dec3.plain = str "a b" ∧ dec3.plain ≠ str "a_b" := by
  obtain ⟨enc, dec, henc, hdec, hplain⟩ := decode_encode text key key hkey rfl
  have hcols : 0 < key.length := List.length_pos.2 hkey
  have hge := le_ceil_mul text.length key.length hcols
  have hpos : ∀ i, i < text.length → text[i]? = some 95 → dec.plain[i]? = some 32 := by
    intro i hi h95
    have hi2 : i < (text.length + key.length - 1) / key.length * key.length := by omega
    have hget : (standardize_loop text).getD i 95 = 95 := by
      simp only [standardize_loop, List.getD_eq_getElem?_getD, List.getElem?_map, h95]
      decide
    rw [hplain]
    simp only [List.getElem?_map, List.getElem?_range hi2, Option.map_some', hget, if_true]
  refine ⟨enc, dec, henc, ?_, hdec, hpos, ?_, ?_⟩
  · rw [← encryption_congr text text2 key key (standardize_same text text2 hsame) rfl]
    exact henc
  · intro hmem heq
    obtain ⟨i, hi, hti⟩ := List.mem_iff_getElem.1 hmem
    have h1 := hpos i hi (by rw [List.getElem?_eq_getElem hi, hti])
    rw [heq, List.getElem?_append_left hi, List.getElem?_eq_getElem hi, hti] at h1
    have h2 : (95 : Int) = 32 := Option.some.inj h1
    omega
  · exact ⟨EncodeResult.mk (str "a_b") (str "k") 3 1 [str "a", str "_", str "b"]
        [KeyChar.mk 107 0] (str "a_b"),
      DecodeResult.mk (str "k") 3 1 [str "a", str "_", str "b"] [KeyChar.mk 107 0]
        (str "a b") false,
      rfl, rfl, rfl, rfl, by decide⟩

/-- Witness of C12: the texts "a_b c" and "a b_c" under the key "key". -/
theorem C12_underscore_conflation_witness :
    ∃ enc dec, encryption (some (str "a_b c")) (some (str "key")) = Except.ok enc ∧
      encryption (some (str "a b_c")) (some (str "key")) = Except.ok enc ∧
      decryption (some enc.cipher) (some (str "key")) = Except.ok dec ∧
      (∀ i, i < (str "a_b c").length → (str "a_b c")[i]? = some 95 →
        dec.plain[i]? = some 32) ∧
      (95 ∈ str "a_b c" → dec.plain ≠ str "a_b c" ++ List.replicate
        (((str "a_b c").length + (str "key").length - 1) / (str "key").length
          * (str "key").length - (str "a_b c").length) 32) ∧
      ∃ enc3 dec3, encryption (some (str "a_b")) (some (str "k")) = Except.ok enc3 ∧
        encryption (some (str "a b")) (some (str "k")) = Except.ok enc3 ∧
        decryption (some enc3.cipher) (some (str "k")) = Except.ok dec3 ∧
        dec3.plain = str "a b" ∧ dec3.plain ≠ str "a_b" :=
  C12_underscore_conflation (str "a_b c") (str "a b_c") (str "key") (by decide)
    (List.Forall₂.cons (Or.inl rfl)
      (List.Forall₂.cons (Or.inr (Or.inl ⟨rfl, rfl⟩))
        (List.Forall₂.cons (Or.inl rfl)
          (List.Forall₂.cons (Or.inr (Or.inr ⟨rfl, rfl⟩))
            (List.Forall₂.cons (Or.inl rfl) List.Forall₂.nil)))))

/-! ## The grid of `encryption` -/

/-- C13 (encode grid fill): for a text of length `n` and a non-empty key of
length `cols`, with `rows = ceil(n / cols)`, the grid that `encryption` builds
has `rows` rows of `cols` cells, and the cell `(r, c)` holds the standardized
text character `r * cols + c` when `r * cols + c < n` and `'_'` otherwise. -/
theorem C13_encode_grid (text key : List Int) (hkey : key ≠ []) :
    ∃ enc, encryption (some text) (some key) = Except.ok enc ∧
      enc.cols = key.length ∧
      enc.rows = (text.length + key.length - 1) / key.length ∧
      (∀ q, enc.rows ≤ q ↔ text.length ≤ q * key.length) ∧
      enc.text = standardize_loop text ∧
      enc.matrix.length = enc.rows ∧ (∀ row ∈ enc.matrix, row.length = enc.cols) ∧
      ∀ r c, r < enc.rows → c < enc.cols →
        (r * enc.cols + c < text.length →
          enc.matrix.read r c = enc.text[r * enc.cols + c]? ∧ enc.matrix.read r c ≠ none) ∧
        (text.length ≤ r * enc.cols + c → enc.matrix.read r c = some 95) := by
  obtain ⟨enc, henc, etext, -, erows, ecols, -, eshape, ecells, -⟩ :=
    encryption_spec text key hkey
  have hcols : 0 < key.length := List.length_pos.2 hkey
  refine ⟨enc, henc, ecols, erows, ?_, etext, eshape.1, eshape.2, ?_⟩
  · intro q
    rw [erows]
    exact ceil_le_iff text.length key.length q hcols
  · intro r c hr hc
    have h := ecells r c hr hc
    constructor
    · intro hlt
      have hlt2 : r * enc.cols + c < (standardize_loop text).length := by
        rw [length_standardize_loop]; exact hlt
      rw [h, etext, List.getD_eq_getElem?_getD, List.getElem?_eq_getElem hlt2]
      exact ⟨rfl, by simp⟩
    · intro hge
      have hge2 : (standardize_loop text).length ≤ r * enc.cols + c := by
        rw [length_standardize_loop]; exact hge
      rw [h, List.getD_eq_getElem?_getD, List.getElem?_eq_none hge2]
      rfl

/-- Witness of C13: the text "hello world" under the key "zebra". -/
theorem C13_encode_grid_witness :
    ∃ enc, encryption (some (str "hello world")) (some (str "zebra")) = Except.ok enc ∧
      enc.cols = (str "zebra").length ∧
      enc.rows = ((str "hello world").length + (str "zebra").length - 1)
        / (str "zebra").length ∧
      (∀ q, enc.rows ≤ q ↔ (str "hello world").length ≤ q * (str "zebra").length) ∧
      enc.text = standardize_loop (str "hello world") ∧
      enc.matrix.length = enc.rows ∧ (∀ row ∈ enc.matrix, row.length = enc.cols) ∧
      ∀ r c, r < enc.rows → c < enc.cols →
        (r * enc.cols + c < (str "hello world").length →
          enc.matrix.read r c = enc.text[r * enc.cols + c]? ∧ enc.matrix.read r c ≠ none) ∧
        ((str "hello world").length ≤ r * enc.cols + c → enc.matrix.read r c = some 95) :=
  C13_encode_grid (str "hello world") (str "zebra") (by decide)

/-! ## The column read-out of `encryption` -/

theorem range_mul_map (g : Nat → Int) (rows : Nat) :
    ∀ n, (List.range (n * rows)).map g
      = (List.range n).flatMap (fun k => (List.range rows).map (fun r => g (k * rows + r)))
  | 0 => by simp
  | n + 1 => by
    have e : (n + 1) * rows = n * rows + rows := by ring
    rw [e, List.range_add, List.map_append, range_mul_map g rows n, List.range_succ,
      List.flatMap_append, List.map_map]
    simp [List.flatMap, Function.comp_def]

theorem column_eq (m : Matrix) (rows c : Nat) (hlen : m.length = rows) :
    column m c = (List.range rows).map (fun r => m.cell r c) := by
  apply List.ext_getElem?
  intro i
  by_cases hi : i < rows
  · have hi1 : i < m.length := by omega
    simp [column, Matrix.cell, Matrix.read, List.getElem?_map, List.getElem?_range hi,
      List.getElem?_eq_getElem hi1, List.getD_eq_getElem?_getD]
  · have h1 : (column m c).length ≤ i := by simp [column]; omega
    have h2 : ((List.range rows).map (fun r => m.cell r c)).length ≤ i := by simp; omega
    rw [List.getElem?_eq_none h1, List.getElem?_eq_none h2]

theorem karr_cols_eq (karr : List KeyChar) :
    karr.map (fun kc => kc.idx.toNat) = (List.range karr.length).map (colOf karr) := by
  apply List.ext_getElem?
  intro i
  by_cases hi : i < karr.length
  · rw [colOf_eq karr i hi]
    simp [List.getElem?_range hi]
  · have h1 : (karr.map (fun kc => kc.idx.toNat)).length ≤ i := by simp; omega
    have h2 : ((List.range karr.length).map (colOf karr)).length ≤ i := by simp; omega
    rw [List.getElem?_eq_none h1, List.getElem?_eq_none h2]

theorem cipher_concat (m : Matrix) (karr : List KeyChar) (rows : Nat)
    (hlen : m.length = rows) :
    (List.range (rows * karr.length)).map (cipherAt m karr rows)
      = karr.flatMap (fun kc => column m kc.idx.toNat) := by
  have h1 : karr.flatMap (fun kc => column m kc.idx.toNat)
      = ((karr.map (fun kc => kc.idx.toNat)).map (column m)).flatten := by
    simp [List.flatMap, List.map_map, Function.comp_def]
  rw [h1, karr_cols_eq, Nat.mul_comm, range_mul_map, List.flatMap, List.map_map]
  congr 1
  apply List.map_congr_left
  intro k _
  rw [Function.comp_apply, column_eq m rows _ hlen]
  apply List.map_congr_left
  intro r hr
  have hr1 : r < rows := List.mem_range.1 hr
  simp only [cipherAt, mul_add_div k r rows hr1, mul_add_mod k r rows hr1]

/-- C14 (encode column read-out): for every text and non-empty key the
ciphertext of `encryption` is the concatenation, over the entries of the sorted
`karr` in order, of the grid column `(size_t)karr[k].idx` read top to bottom; and
for `k < cols`, `r < rows` the ciphertext character `k * rows + r` is the cell
`matrix[r][(size_t)karr[k].idx]`. -/
theorem C14_column_readout (text key : List Int) (hkey : key ≠ []) :
    ∃ enc, encryption (some text) (some key) = Except.ok enc ∧
      enc.karr.length = enc.cols ∧
      enc.cipher.length = enc.rows * enc.cols ∧
      enc.cipher = enc.karr.flatMap (fun kc => column enc.matrix kc.idx.toNat) ∧
      ∀ k r (hk : k < enc.karr.length), r < enc.rows →
        enc.cipher[k * enc.rows + r]? = enc.matrix.read r (enc.karr[k]).idx.toNat ∧
        enc.matrix.read r (enc.karr[k]).idx.toNat ≠ none := by
  obtain ⟨enc, henc, -, -, -, ecols, ekarr, eshape, -, ecipher⟩ :=
    encryption_spec text key hkey
  have hklen : enc.karr.length = enc.cols := by
    rw [ekarr, karr_length, length_standardize_loop, ecols]
  refine ⟨enc, henc, hklen, by rw [ecipher]; simp, ?_, ?_⟩
  · rw [ecipher, ← hklen]
    exact cipher_concat enc.matrix enc.karr enc.rows eshape.1
  · intro k r hk hr
    have hk1 : k < enc.cols := by omega
    have hk2 : k < (standardize_loop key).length := by
      rw [length_standardize_loop, ← ecols]; exact hk1
    have hcol : (enc.karr[k]).idx.toNat = colOf enc.karr k := by
      simp [colOf, List.getElem?_eq_getElem hk]
    have hcollt : colOf enc.karr k < enc.cols := by
      have := colOf_lt (standardize_loop key) k hk2
      rw [length_standardize_loop, ← ecols, ← ekarr] at this
      exact this
    have hread := Matrix.read_some enc.matrix enc.rows enc.cols r _ eshape hr hcollt
    have hlt : k * enc.rows + r < enc.rows * enc.cols := by
      have := mul_add_lt k r enc.rows enc.cols hk1 hr
      rw [Nat.mul_comm enc.cols enc.rows] at this
      exact this
    rw [hcol, hread, ecipher]
    refine ⟨?_, by simp⟩
    simp only [List.getElem?_map, List.getElem?_range hlt, Option.map_some', cipherAt,
      mul_add_div k r enc.rows hr, mul_add_mod k r enc.rows hr]

/-- Witness of C14: the text "hello world" under the key "zebra". -/
theorem C14_column_readout_witness :
    ∃ enc, encryption (some (str "hello world")) (some (str "zebra")) = Except.ok enc ∧
      enc.karr.length = enc.cols ∧
      enc.cipher.length = enc.rows * enc.cols ∧
      enc.cipher = enc.karr.flatMap (fun kc => column enc.matrix kc.idx.toNat) ∧
      ∀ k r (hk : k < enc.karr.length), r < enc.rows →
        enc.cipher[k * enc.rows + r]? = enc.matrix.read r (enc.karr[k]).idx.toNat ∧
        enc.matrix.read r (enc.karr[k]).idx.toNat ≠ none :=
  C14_column_readout (str "hello world") (str "zebra") (by decide)

/-! ## The grid and the plaintext of `decryption` -/

theorem plainAt_ne_filler (m : Matrix) (cols i : Nat) : plainAt m cols i ≠ 95 := by
  unfold plainAt
  split_ifs with h
  · omega
  · exact h

/-- C15 (decode column fill and read-out): for a ciphertext of length `m` and a
non-empty key of length `cols`, with `rows = ceil(m / cols)`, the grid of
`decryption` holds at row `r` of the column `(size_t)karr[k].idx` the ciphertext
character `k * rows + r` when `k * rows + r < m` and `'_'` otherwise; the
plaintext has `rows * cols` characters, the character `r * cols + c` being the
cell `(r, c)` with `'_'` replaced by `' '`; so the plaintext contains no `'_'`. -/
theorem C15_decode_grid (cipher key : List Int) (hkey : key ≠ []) :
    ∃ dec, decryption (some cipher) (some key) = Except.ok dec ∧
      dec.cols = key.length ∧
      dec.rows = (cipher.length + key.length - 1) / key.length ∧
      (∀ q, dec.rows ≤ q ↔ cipher.length ≤ q * key.length) ∧
      dec.karr.length = dec.cols ∧
      (∀ k r (hk : k < dec.karr.length), r < dec.rows →
        (k * dec.rows + r < cipher.length →
          dec.matrix.read r (dec.karr[k]).idx.toNat = cipher[k * dec.rows + r]? ∧
          dec.matrix.read r (dec.karr[k]).idx.toNat ≠ none) ∧
        (cipher.length ≤ k * dec.rows + r →
          dec.matrix.read r (dec.karr[k]).idx.toNat = some 95)) ∧
      dec.plain.length = dec.rows * dec.cols ∧
      (∀ r c, r < dec.rows → c < dec.cols →
        ∃ v, dec.matrix.read r c = some v ∧
          dec.plain[r * dec.cols + c]? = some (if v = 95 then 32 else v)) ∧
      95 ∉ dec.plain := by
  obtain ⟨dec, hdec, -, drows, dcols, dkarr, -, dshape, dcells, dplain⟩ :=
    decryption_spec cipher key hkey
  have hcols : 0 < key.length := List.length_pos.2 hkey
  have hklen : dec.karr.length = dec.cols := by
    rw [dkarr, karr_length, length_standardize_loop, dcols]
  refine ⟨dec, hdec, dcols, drows, ?_, hklen, ?_, by rw [dplain]; simp, ?_, ?_⟩
  · intro q
    rw [drows]
    exact ceil_le_iff cipher.length key.length q hcols
  · intro k r hk hr
    have hcol : (dec.karr[k]).idx.toNat = colOf dec.karr k := by
      simp [colOf, List.getElem?_eq_getElem hk]
    have h := dcells k r (by omega) hr
    rw [hcol, h]
    constructor
    · intro hlt
      rw [List.getD_eq_getElem?_getD, List.getElem?_eq_getElem hlt]
      exact ⟨rfl, by simp⟩
    · intro hge
      rw [List.getD_eq_getElem?_getD, List.getElem?_eq_none hge]
      rfl
  · intro r c hr hc
    have hread := Matrix.read_some dec.matrix dec.rows dec.cols r c dshape hr hc
    refine ⟨dec.matrix.cell r c, hread, ?_⟩
    have hlt : r * dec.cols + c < dec.rows * dec.cols := mul_add_lt r c dec.cols dec.rows hr hc
    rw [dplain]
    simp only [List.getElem?_map, List.getElem?_range hlt, Option.map_some', plainAt,
      mul_add_div r c dec.cols hc, mul_add_mod r c dec.cols hc]
  · rw [dplain]
    intro hmem
    obtain ⟨i, -, hi⟩ := List.mem_map.1 hmem
    exact plainAt_ne_filler _ _ _ hi

/-- Witness of C15: a ciphertext of 17 characters under the key "zebra". -/
theorem C15_decode_grid_witness :
    ∃ dec, decryption (some (str "ol_lo_ew_lr_h_dxx")) (some (str "zebra")) = Except.ok dec ∧
      dec.cols = (str "zebra").length ∧
      dec.rows = ((str "ol_lo_ew_lr_h_dxx").length + (str "zebra").length - 1)
        / (str "zebra").length ∧
      (∀ q, dec.rows ≤ q ↔ (str "ol_lo_ew_lr_h_dxx").length ≤ q * (str "zebra").length) ∧
      dec.karr.length = dec.cols ∧
      (∀ k r (hk : k < dec.karr.length), r < dec.rows →
        (k * dec.rows + r < (str "ol_lo_ew_lr_h_dxx").length →
          dec.matrix.read r (dec.karr[k]).idx.toNat
            = (str "ol_lo_ew_lr_h_dxx")[k * dec.rows + r]? ∧
          dec.matrix.read r (dec.karr[k]).idx.toNat ≠ none) ∧
        ((str "ol_lo_ew_lr_h_dxx").length ≤ k * dec.rows + r →
          dec.matrix.read r (dec.karr[k]).idx.toNat = some 95)) ∧
      dec.plain.length = dec.rows * dec.cols ∧
      (∀ r c, r < dec.rows → c < dec.cols →
        ∃ v, dec.matrix.read r c = some v ∧
          dec.plain[r * dec.cols + c]? = some (if v = 95 then 32 else v)) ∧
      95 ∉ dec.plain :=
  C15_decode_grid (str "ol_lo_ew_lr_h_dxx") (str "zebra") (by decide)

/-! ## The order in which the column loops visit the grid -/

theorem step_split (rows cols t : Nat) (ht : t < rows * cols) :
    t % rows < rows ∧ t / rows < cols ∧ t / rows * rows + t % rows = t := by
  have hrows : 0 < rows := by
    rcases Nat.eq_zero_or_pos rows with h | h
    · subst h; simp at ht
    · exact h
  refine ⟨Nat.mod_lt _ hrows, ?_, ?_⟩
  · rw [Nat.div_lt_iff_lt_mul hrows, Nat.mul_comm]; exact ht
  · rw [Nat.mul_comm]; exact Nat.div_add_mod t rows

theorem cellPos_lt (key : List Int) (rows t : Nat) (ht : t < rows * key.length) :
    cellPos (sorted_karr key) rows key.length t < rows * key.length := by
  obtain ⟨h1, h2, -⟩ := step_split rows key.length t ht
  exact mul_add_lt _ _ key.length rows h1 (colOf_lt key _ h2)

theorem cellPos_inj (key : List Int) (rows t u : Nat) (ht : t < rows * key.length)
    (hu : u < rows * key.length)
    (h : cellPos (sorted_karr key) rows key.length t
      = cellPos (sorted_karr key) rows key.length u) : t = u := by
  obtain ⟨ht1, ht2, ht3⟩ := step_split rows key.length t ht
  obtain ⟨hu1, hu2, hu3⟩ := step_split rows key.length u hu
  have hc := colOf_lt key _ ht2
  have h1 := (mul_add_eq_iff (t % rows) (colOf (sorted_karr key) (t / rows)) key.length _ hc).1 h
  unfold cellPos at h1
  rw [mul_add_div _ _ key.length (colOf_lt key _ hu2),
    mul_add_mod _ _ key.length (colOf_lt key _ hu2)] at h1
  have h2 := colOf_inj key _ _ ht2 hu2 h1.2
  rw [← ht3, ← hu3, h1.1, h2]

theorem cellPos_surj (key : List Int) (rows i : Nat) (hi : i < rows * key.length) :
    ∃ t, t < rows * key.length ∧ cellPos (sorted_karr key) rows key.length t = i := by
  have hcols : 0 < key.length := by
    rcases Nat.eq_zero_or_pos key.length with h | h
    · rw [h] at hi; simp at hi
    · exact h
  have hr : i / key.length < rows := (Nat.div_lt_iff_lt_mul hcols).2 hi
  obtain ⟨k, hk, hkc⟩ := colOf_surj key (i % key.length) (Nat.mod_lt _ hcols)
  refine ⟨k * rows + i / key.length, ?_, ?_⟩
  · have := mul_add_lt k (i / key.length) rows key.length hk hr
    rw [Nat.mul_comm rows key.length]; exact this
  · unfold cellPos
    rw [mul_add_div k _ rows hr, mul_add_mod k _ rows hr, hkc, Nat.mul_comm]
    exact Nat.div_add_mod i key.length

theorem cellPos_perm (key : List Int) (rows : Nat) :
    ((List.range (rows * key.length)).map (cellPos (sorted_karr key) rows key.length)).Perm
      (List.range (rows * key.length)) := by
  have hnd : ((List.range (rows * key.length)).map
      (cellPos (sorted_karr key) rows key.length)).Nodup :=
    List.Nodup.map_on
      (fun x hx y hy h =>
        cellPos_inj key rows x y (List.mem_range.1 hx) (List.mem_range.1 hy) h)
      (List.nodup_range _)
  rw [List.perm_ext_iff_of_nodup hnd (List.nodup_range _)]
  intro a
  constructor
  · intro ha
    obtain ⟨t, ht, hta⟩ := List.mem_map.1 ha
    rw [← hta]
    exact List.mem_range.2 (cellPos_lt key rows t (List.mem_range.1 ht))
  · intro ha
    obtain ⟨t, ht, hta⟩ := cellPos_surj key rows a (List.mem_range.1 ha)
    exact List.mem_map.2 ⟨t, List.mem_range.2 ht, hta⟩

/-- The plaintext of `decryption`, cell by cell in the order of the column
loops: the cell visited at step `t` shows the ciphertext character `t`, or the
filler past the end of the ciphertext, with `'_'` turned into `' '`. -/
theorem decryption_plain_at (cipher key : List Int) (hkey : key ≠ []) :
    ∃ dec, decryption (some cipher) (some key) = Except.ok dec ∧
      dec.rows = (cipher.length + key.length - 1) / key.length ∧ dec.cols = key.length ∧
      dec.karr = sorted_karr (standardize_loop key) ∧
      dec.plain.length = dec.rows * dec.cols ∧
      ∀ t, t < dec.rows * dec.cols →
        dec.matrix.read (t % dec.rows) (colOf dec.karr (t / dec.rows))
          = some (cipher.getD t 95) ∧
        dec.plain[cellPos dec.karr dec.rows dec.cols t]?
          = some (if cipher.getD t 95 = 95 then 32 else cipher.getD t 95) := by
  obtain ⟨dec, hdec, -, drows, dcols, dkarr, -, dshape, dcells, dplain⟩ :=
    decryption_spec cipher key hkey
  refine ⟨dec, hdec, drows, dcols, dkarr, by rw [dplain]; simp, ?_⟩
  intro t ht
  obtain ⟨h1, h2, h3⟩ := step_split dec.rows dec.cols t ht
  have hread := dcells (t / dec.rows) (t % dec.rows) h2 h1
  rw [h3] at hread
  have hlk : (standardize_loop key).length = dec.cols := by
    rw [length_standardize_loop, dcols]
  have hc : colOf dec.karr (t / dec.rows) < dec.cols := by
    have := colOf_lt (standardize_loop key) (t / dec.rows) (by rw [hlk]; exact h2)
    rw [hlk, ← dkarr] at this
    exact this
  have hlt : cellPos dec.karr dec.rows dec.cols t < dec.rows * dec.cols :=
    mul_add_lt _ _ dec.cols dec.rows h1 hc
  have hcell : dec.matrix.cell (t % dec.rows) (colOf dec.karr (t / dec.rows))
      = cipher.getD t 95 := by
    unfold Matrix.cell
    rw [hread]
    rfl
  refine ⟨hread, ?_⟩
  rw [dplain]
  simp only [List.getElem?_map, List.getElem?_range hlt, Option.map_some', plainAt]
  unfold cellPos
  rw [mul_add_div _ _ dec.cols hc, mul_add_mod _ _ dec.cols hc, hcell]

/-! ## Padding on a length mismatch -/

/-- C16, counterexample: the ciphertext "abc" (3 characters) under the key "ba"
(2 columns) is decoded with 2 rows, so one cell is missing; the sorted key
visits column 1 first, the filler lands in row 1 of column 0, the grid is
"ca", "_b" and the plaintext is "ca b": its last character is `'b'`, not a
space. -/
theorem C16_padding_not_trailing :
    ∃ dec, decryption (some (str "abc")) (some (str "ba")) = Except.ok dec ∧
      (str "abc").length % (str "ba").length ≠ 0 ∧
      dec.rows * dec.cols - (str "abc").length = 1 ∧
      dec.matrix = [str "ca", str "_b"] ∧
      dec.plain = str "ca b" ∧
      ¬ (∀ i, dec.plain.length - (dec.rows * dec.cols - (str "abc").length) ≤ i →
          i < dec.plain.length → dec.plain[i]? = some 32) :=
  ⟨DecodeResult.mk (str "ba") 2 2 [str "ca", str "_b"] [KeyChar.mk 97 1, KeyChar.mk 98 0]
      (str "ca b") true,
    rfl, by decide, by decide, by decide, by decide,
    fun h => absurd (h 3 (by decide) (by decide)) (by decide)⟩

/-- C16, amended: for every ciphertext of length `m` (a multiple of `cols` or
not) and non-empty key, the `rows * cols - m` cells that `decryption` leaves as
filler are the last cells in the order in which the column loops visit the grid:
the step `t = k * rows + r` with `m ≤ t < rows * cols` leaves `'_'` in row `r`
of the column `(size_t)karr[k].idx`, and the plaintext shows a space at that
cell, position `r * cols + (size_t)karr[k].idx`; distinct steps visit distinct
cells. -/
theorem C16_padding_position (cipher key : List Int) (hkey : key ≠ []) :
    ∃ dec, decryption (some cipher) (some key) = Except.ok dec ∧
      dec.cols = key.length ∧
      dec.rows = (cipher.length + key.length - 1) / key.length ∧
      dec.plain.length = dec.rows * dec.cols ∧
      (∀ t, cipher.length ≤ t → t < dec.rows * dec.cols →
        dec.matrix.read (t % dec.rows) (colOf dec.karr (t / dec.rows)) = some 95 ∧
        cellPos dec.karr dec.rows dec.cols t
          = (t % dec.rows) * dec.cols + colOf dec.karr (t / dec.rows) ∧
        cellPos dec.karr dec.rows dec.cols t < dec.plain.length ∧
        dec.plain[cellPos dec.karr dec.rows dec.cols t]? = some 32) ∧
      ∀ t u, t < dec.rows * dec.cols → u < dec.rows * dec.cols →
        cellPos dec.karr dec.rows dec.cols t = cellPos dec.karr dec.rows dec.cols u →
        t = u := by
  obtain ⟨dec, hdec, drows, dcols, dkarr, dlen, dat⟩ := decryption_plain_at cipher key hkey
  have hlk : (standardize_loop key).length = dec.cols := by
    rw [length_standardize_loop, dcols]
  refine ⟨dec, hdec, dcols, drows, dlen, ?_, ?_⟩
  · intro t hm ht
    obtain ⟨h1, h2⟩ := dat t ht
    have hfill : cipher.getD t 95 = 95 := by
      rw [List.getD_eq_getElem?_getD, List.getElem?_eq_none hm]
      rfl
    rw [hfill] at h1 h2
    refine ⟨h1, rfl, ?_, by simpa using h2⟩
    have := cellPos_lt (standardize_loop key) dec.rows t (by rw [hlk]; exact ht)
    rw [hlk, ← dkarr] at this
    rw [dlen]; exact this
  · intro t u ht hu h
    rw [dkarr, ← hlk] at h
    exact cellPos_inj (standardize_loop key) dec.rows t u (by rw [hlk]; exact ht)
      (by rw [hlk]; exact hu) h

/-- Witness of the amended C16: the ciphertext "abc" under the key "ba". -/
theorem C16_padding_position_witness :
    ∃ dec, decryption (some (str "abc")) (some (str "ba")) = Except.ok dec ∧
      dec.cols = (str "ba").length ∧
      dec.rows = ((str "abc").length + (str "ba").length - 1) / (str "ba").length ∧
      dec.plain.length = dec.rows * dec.cols ∧
      (∀ t, (str "abc").length ≤ t → t < dec.rows * dec.cols →
        dec.matrix.read (t % dec.rows) (colOf dec.karr (t / dec.rows)) = some 95 ∧
        cellPos dec.karr dec.rows dec.cols t
          = (t % dec.rows) * dec.cols + colOf dec.karr (t / dec.rows) ∧
        cellPos dec.karr dec.rows dec.cols t < dec.plain.length ∧
        dec.plain[cellPos dec.karr dec.rows dec.cols t]? = some 32) ∧
      ∀ t u, t < dec.rows * dec.cols → u < dec.rows * dec.cols →
        cellPos dec.karr dec.rows dec.cols t = cellPos dec.karr dec.rows dec.cols u →
        t = u :=
  C16_padding_position (str "abc") (str "ba") (by decide)

/-! ## Keys and texts that standardize alike -/

/-- C17 (key normalisation invariance): `encryption` gives the same result, so
the same ciphertext, for a key and for `standardize_chars` of it, and
`decryption` the same result, so the same plaintext; two keys with the same
standardized form (such as "ZeBra" and "zebra", or "a b" and "a_b") encode and
decode identically; and `encryption` of a text equals `encryption` of
`standardize_chars` of it.  With a non-empty key these results are successes. -/
theorem C17_key_normalisation (text cipher key : List Int) :
    encryption (some text) (standardize_chars (some key)) = encryption (some text) (some key) ∧
    decryption (some cipher) (standardize_chars (some key))
      = decryption (some cipher) (some key) ∧
    encryption (standardize_chars (some text)) (some key) = encryption (some text) (some key) ∧
    (∀ key2, standardize_chars (some key2) = standardize_chars (some key) →
      encryption (some text) (some key2) = encryption (some text) (some key) ∧
      decryption (some cipher) (some key2) = decryption (some cipher) (some key)) ∧
    encryption (some text) (some (str "ZeBra")) = encryption (some text) (some (str "zebra")) ∧
    decryption (some cipher) (some (str "a b")) = decryption (some cipher) (some (str "a_b")) ∧
    (key ≠ [] → ∃ enc dec, encryption (some text) (some key) = Except.ok enc ∧
      decryption (some cipher) (some key) = Except.ok dec) := by
  refine ⟨?_, ?_, ?_, ?_, ?_, ?_, ?_⟩
  · exact encryption_congr text text _ key rfl (standardize_loop_idem key)
  · exact decryption_congr cipher _ key (standardize_loop_idem key)
  · exact encryption_congr _ text key key (standardize_loop_idem text) rfl
  · intro key2 h
    have h2 : standardize_loop key2 = standardize_loop key := Option.some.inj h
    exact ⟨encryption_congr text text key2 key rfl h2, decryption_congr cipher key2 key h2⟩
  · exact encryption_congr text text _ _ rfl (by decide)
  · exact decryption_congr cipher _ _ (by decide)
  · intro hkey
    obtain ⟨enc, henc, -⟩ := encryption_spec text key hkey
    obtain ⟨dec, hdec, -⟩ := decryption_spec cipher key hkey
    exact ⟨enc, dec, henc, hdec⟩

/-! ## Encoding what was decoded -/

theorem standardize_unfill (x : Int) (hx : ¬ (65 ≤ x ∧ x ≤ 90) ∧ x ≠ 32) :
    standardize_step (if x = 95 then 32 else x) = x := by
  unfold standardize_step to_lower_char
  dsimp only
  split_ifs <;> omega

theorem ceil_mul_of_dvd (m cols : Nat) (h : m % cols = 0) :
    (m + cols - 1) / cols * cols = m := by
  have h1 := decrypt_rows_eq m cols
  simp only [h, ne_eq, not_true_eq_false, if_false] at h1
  rw [← h1]
  exact Nat.div_mul_cancel (Nat.dvd_of_mod_eq_zero h)

theorem range_map_getElem (l : List Int) (g : Nat → Int)
    (h : ∀ i (hi : i < l.length), g i = l[i]) :
    (List.range l.length).map g = l := by
  apply List.ext_getElem?
  intro i
  by_cases hi : i < l.length
  · simp [List.getElem?_range hi, List.getElem?_eq_getElem hi, h i hi]
  · have h1 : ((List.range l.length).map g).length ≤ i := by simp; omega
    rw [List.getElem?_eq_none h1, List.getElem?_eq_none (by omega)]

/-- C18 (reverse round trip): for a non-empty key of length `cols` and a
ciphertext whose length is a multiple of `cols` and which has no uppercase
letter (`65..90`) and no space (`32`), `decryption` succeeds and `encryption` of
its plaintext with the same key succeeds with exactly that ciphertext. -/
theorem C18_reverse_round_trip (ct key : List Int) (hkey : key ≠ [])
    (hmul : ct.length % key.length = 0)
    (hc : ∀ x ∈ ct, ¬ (65 ≤ x ∧ x ≤ 90) ∧ x ≠ 32) :
    ∃ dec enc, decryption (some ct) (some key) = Except.ok dec ∧
      encryption (some dec.plain) (some key) = Except.ok enc ∧
      enc.cipher = ct := by
  obtain ⟨dec, hdec, drows, dcols, dkarr, dlen, dat⟩ := decryption_plain_at ct key hkey
  obtain ⟨enc, henc, -, -, erows, ecols, ekarr, eshape, ecells, ecipher⟩ :=
    encryption_spec dec.plain key hkey
  have hcols : 0 < key.length := List.length_pos.2 hkey
  have hm : dec.rows * key.length = ct.length := by
    rw [drows]; exact ceil_mul_of_dvd ct.length key.length hmul
  rw [dcols] at dlen dat
  have hrows : enc.rows = dec.rows := by
    rw [erows, dlen]; exact ceil_of_mul _ _ hcols
  have hkarr : enc.karr = dec.karr := by rw [ekarr, dkarr]
  have hlk : (standardize_loop key).length = key.length := length_standardize_loop key
  refine ⟨dec, enc, hdec, henc, ?_⟩
  rw [ecipher, ecols, hrows, hkarr, hm]
  apply range_map_getElem
  intro t ht
  have ht1 : t < dec.rows * key.length := by omega
  obtain ⟨h1, h2, -⟩ := step_split dec.rows key.length t ht1
  have hcl : colOf dec.karr (t / dec.rows) < key.length := by
    have := colOf_lt (standardize_loop key) (t / dec.rows) (by rw [hlk]; exact h2)
    rw [hlk, ← dkarr] at this
    exact this
  have hread := ecells (t % dec.rows) (colOf dec.karr (t / dec.rows))
    (by rw [hrows]; exact h1) (by rw [ecols]; exact hcl)
  rw [ecols] at hread
  have hplain := (dat t ht1).2
  have hpos : cellPos dec.karr dec.rows key.length t < dec.rows * key.length :=
    mul_add_lt _ _ key.length dec.rows h1 hcl
  have hct : ct.getD t 95 = ct[t] := by
    rw [List.getD_eq_getElem?_getD, List.getElem?_eq_getElem ht]
    rfl
  have hstd : (standardize_loop dec.plain).getD (cellPos dec.karr dec.rows key.length t) 95
      = ct[t] := by
    rw [hct] at hplain
    simp only [standardize_loop, List.getD_eq_getElem?_getD, List.getElem?_map, hplain,
      Option.map_some', Option.getD_some]
    exact standardize_unfill _ (hc _ (List.getElem_mem ht))
  unfold cipherAt Matrix.cell
  rw [hread]
  exact hstd

/-- Witness of C18: the ciphertext "ol_lo_ew_lr_h_d" under the key "zebra". -/
theorem C18_reverse_round_trip_witness :
    ∃ dec enc, decryption (some (str "ol_lo_ew_lr_h_d")) (some (str "zebra")) = Except.ok dec ∧
      encryption (some dec.plain) (some (str "zebra")) = Except.ok enc ∧
      enc.cipher = str "ol_lo_ew_lr_h_d" :=
  C18_reverse_round_trip (str "ol_lo_ew_lr_h_d") (str "zebra") (by decide) (by decide)
    (by decide)

/-! ## The ciphertext as a rearrangement -/

theorem range_map_getD (l : List Int) (n : Nat) (d : Int) (h : l.length ≤ n) :
    (List.range n).map (fun i => l.getD i d) = l ++ List.replicate (n - l.length) d := by
  apply List.ext_getElem?
  intro i
  by_cases hi : i < l.length
  · have hi2 : i < n := by omega
    simp [List.getElem?_range hi2, List.getElem?_append_left hi, List.getD_eq_getElem?_getD,
      List.getElem?_eq_getElem hi]
  · by_cases hi2 : i < n
    · have hr : i - l.length < n - l.length := by omega
      simp [List.getElem?_range hi2, List.getElem?_append_right (Nat.le_of_not_lt hi),
        List.getD_eq_getElem?_getD, List.getElem?_eq_none (Nat.le_of_not_lt hi),
        List.getElem?_replicate, hr]
    · have h1 : ((List.range n).map (fun i => l.getD i d)).length ≤ i := by simp; omega
      have h2 : (l ++ List.replicate (n - l.length) d).length ≤ i := by simp; omega
      rw [List.getElem?_eq_none h1, List.getElem?_eq_none h2]

/-- C19 (encryption is a pure transposition): for every text and non-empty key
the ciphertext is a rearrangement of the standardized text followed by
`rows * cols - len(text)` filler characters `'_'`: every character occurs in
both the same number of times. -/
theorem C19_pure_transposition (text key : List Int) (hkey : key ≠ []) :
    ∃ enc, encryption (some text) (some key) = Except.ok enc ∧
      enc.text = standardize_loop text ∧
      enc.cipher.Perm
        (enc.text ++ List.replicate (enc.rows * enc.cols - text.length) 95) ∧
      ∀ x, enc.cipher.count x
        = (enc.text ++ List.replicate (enc.rows * enc.cols - text.length) 95).count x := by
  obtain ⟨enc, henc, etext, -, erows, ecols, ekarr, eshape, ecells, ecipher⟩ :=
    encryption_spec text key hkey
  have hcols : 0 < key.length := List.length_pos.2 hkey
  have hlk : (standardize_loop key).length = key.length := length_standardize_loop key
  have hge : (standardize_loop text).length ≤ enc.rows * enc.cols := by
    rw [length_standardize_loop, erows, ecols]
    exact le_ceil_mul text.length key.length hcols
  have hperm : enc.cipher.Perm
      (enc.text ++ List.replicate (enc.rows * enc.cols - text.length) 95) := by
    have h1 : enc.cipher = ((List.range (enc.rows * enc.cols)).map
        (cellPos enc.karr enc.rows enc.cols)).map
          (fun i => (standardize_loop text).getD i 95) := by
      rw [ecipher, List.map_map]
      apply List.map_congr_left
      intro t ht
      have ht1 : t < enc.rows * enc.cols := List.mem_range.1 ht
      obtain ⟨h2, h3, -⟩ := step_split enc.rows enc.cols t ht1
      have hcl : colOf enc.karr (t / enc.rows) < enc.cols := by
        have := colOf_lt (standardize_loop key) (t / enc.rows) (by rw [hlk, ← ecols]; exact h3)
        rw [hlk, ← ekarr, ← ecols] at this
        exact this
      have hread := ecells (t % enc.rows) (colOf enc.karr (t / enc.rows)) h2 hcl
      simp only [Function.comp_apply, cipherAt, Matrix.cell, hread, Option.getD_some, cellPos]
    have h4 := cellPos_perm (standardize_loop key) enc.rows
    rw [hlk, ← ekarr, ← ecols] at h4
    have h5 := h4.map (fun i => (standardize_loop text).getD i 95)
    rw [range_map_getD _ _ _ hge, length_standardize_loop] at h5
    rw [h1, etext]
    exact h5
  exact ⟨enc, henc, etext, hperm, fun x => hperm.count_eq x⟩

/-- Witness of C19: the text "hello world" under the key "zebra". -/
theorem C19_pure_transposition_witness :
    ∃ enc, encryption (some (str "hello world")) (some (str "zebra")) = Except.ok enc ∧
      enc.text = standardize_loop (str "hello world") ∧
      enc.cipher.Perm
        (enc.text ++ List.replicate (enc.rows * enc.cols - (str "hello world").length) 95) ∧
      ∀ x, enc.cipher.count x
        = (enc.text ++ List.replicate
            (enc.rows * enc.cols - (str "hello world").length) 95).count x :=
  C19_pure_transposition (str "hello world") (str "zebra") (by decide)

/-! ## Index safety -/

theorem encryption_in_bounds (text key : Option (List Int)) :
    encryption text key ≠ Except.error Error.OutOfBounds := by
  cases text with
  | none => cases key <;> exact fun h => by cases h
  | some t =>
    cases key with
    | none => exact fun h => by cases h
    | some k =>
      intro h
      by_cases hk : k = []
      · subst hk
        have he : encryption (some t) (some []) = Except.error Error.EmptyKey := rfl
        rw [he] at h
        cases h
      · obtain ⟨enc, henc, -⟩ := encryption_spec t k hk
        rw [henc] at h
        cases h

theorem decryption_in_bounds (cipher key : Option (List Int)) :
    decryption cipher key ≠ Except.error Error.OutOfBounds := by
  cases cipher with
  | none => cases key <;> exact fun h => by cases h
  | some t =>
    cases key with
    | none => exact fun h => by cases h
    | some k =>
      intro h
      by_cases hk : k = []
      · subst hk
        have he : decryption (some t) (some []) = Except.error Error.EmptyKey := rfl
        rw [he] at h
        cases h
      · obtain ⟨dec, hdec, -⟩ := decryption_spec t k hk
        rw [hdec] at h
        cases h

theorem karr_idx_nonneg (key : List Int) (kc : KeyChar) (h : kc ∈ sorted_karr key) :
    0 ≤ kc.idx := by
  have h1 : kc.idx ∈ (sorted_karr key).map (fun kc => kc.idx) := List.mem_map.2 ⟨kc, h, rfl⟩
  have h2 := (karr_idx_perm key).mem_iff.1 h1
  obtain ⟨n, -, hn⟩ := List.mem_map.1 h2
  rw [← hn]
  exact Int.ofNat_nonneg n

/-- C20 (index safety): no input, present or `NULL`, makes `encryption` or
`decryption` access an array outside its bounds.  For a non-empty key: the fill
loop of `encryption` writes row `i / cols < rows`, column `i % cols < cols` for
every `i < len(text)`; every `karr[k].idx` is non-negative and below `cols`;
after `k ≤ cols` columns the write position of the ciphertext is `k * rows`, at
most `rows * cols`, and `rows * cols` at the end; in `decryption` the read
position of the ciphertext after `k ≤ cols` columns is `min (k * rows) m`, never
beyond its length `m`, and after `r ≤ rows` rows the write position of the
plaintext is `r * cols`, at most `rows * cols`, and `rows * cols` at the end. -/
theorem C20_index_safety (text key : List Int) (hkey : key ≠ []) :
    (∀ t k : Option (List Int), encryption t k ≠ Except.error Error.OutOfBounds ∧
      decryption t k ≠ Except.error Error.OutOfBounds) ∧
    ∃ enc dec, encryption (some text) (some key) = Except.ok enc ∧
      decryption (some text) (some key) = Except.ok dec ∧
      (∀ i, i < text.length → i / enc.cols < enc.rows ∧ i % enc.cols < enc.cols) ∧
      enc.karr.length = enc.cols ∧ dec.karr = enc.karr ∧ dec.cols = enc.cols ∧
      (∀ k (hk : k < enc.karr.length),
        0 ≤ (enc.karr[k]).idx ∧ (enc.karr[k]).idx.toNat < enc.cols) ∧
      (∀ k, k ≤ enc.cols →
        ∃ st, read_columns enc.matrix enc.karr enc.rows k
            (List.replicate (enc.rows * enc.cols + 1) 0, 0) = some st ∧
          st.2 = k * enc.rows ∧ st.2 ≤ enc.rows * enc.cols) ∧
      enc.cipher.length = enc.rows * enc.cols ∧
      (∀ k, k ≤ dec.cols →
        ∃ st, fill_columns text dec.karr dec.rows k
            (alloc_matrix dec.rows dec.cols, 0) = some st ∧
          st.2 = min (k * dec.rows) text.length ∧ st.2 ≤ text.length) ∧
      (∀ r, r ≤ dec.rows →
        ∃ st, read_rows dec.matrix r dec.cols
            (List.replicate (dec.rows * dec.cols + 1) 0, 0) = some st ∧
          st.2 = r * dec.cols ∧ st.2 ≤ dec.rows * dec.cols) ∧
      dec.plain.length = dec.rows * dec.cols := by
  refine ⟨fun t k => ⟨encryption_in_bounds t k, decryption_in_bounds t k⟩, ?_⟩
  obtain ⟨enc, henc, -, -, erows, ecols, ekarr, eshape, -, ecipher⟩ :=
    encryption_spec text key hkey
  obtain ⟨dec, hdec, -, drows, dcols, dkarr, -, dshape, -, dplain⟩ :=
    decryption_spec text key hkey
  have hcols : 0 < key.length := List.length_pos.2 hkey
  have hlk : (standardize_loop key).length = key.length := length_standardize_loop key
  have hklen : enc.karr.length = enc.cols := by
    rw [ekarr, karr_length, hlk, ecols]
  refine ⟨enc, dec, henc, hdec, ?_, hklen, by rw [dkarr, ekarr], by rw [dcols, ecols], ?_, ?_,
    by rw [ecipher]; simp, ?_, ?_, by rw [dplain]; simp⟩
  · intro i hi
    rw [ecols, erows]
    refine ⟨?_, Nat.mod_lt _ hcols⟩
    rw [Nat.div_lt_iff_lt_mul hcols]
    have := le_ceil_mul text.length key.length hcols
    omega
  · intro k hk
    have hmem : enc.karr[k] ∈ sorted_karr (standardize_loop key) := by
      rw [← ekarr]; exact List.getElem_mem hk
    refine ⟨karr_idx_nonneg _ _ hmem, ?_⟩
    have hcol : (enc.karr[k]).idx.toNat = colOf enc.karr k := by
      simp [colOf, List.getElem?_eq_getElem hk]
    have := colOf_lt (standardize_loop key) k (by rw [hlk, ← ecols, ← hklen]; exact hk)
    rw [hlk, ← ekarr, ← ecols] at this
    rw [hcol]; exact this
  · intro k hk
    have hs : enc.matrix.Shape enc.rows (standardize_loop key).length := by
      rw [hlk, ← ecols]; exact eshape
    obtain ⟨st, hst, hinv⟩ := read_columns_prefix enc.matrix (standardize_loop key) enc.rows k
      (by rw [hlk, ← ecols]; exact hk) hs
    rw [hlk, ← ekarr, ← ecols] at hst
    refine ⟨st, hst, hinv.2.1, ?_⟩
    rw [hinv.2.1, Nat.mul_comm enc.rows enc.cols]
    exact Nat.mul_le_mul_right enc.rows hk
  · intro k hk
    obtain ⟨st, hst, hinv⟩ := fill_columns_prefix text (standardize_loop key) dec.rows k
      (by rw [hlk, ← dcols]; exact hk)
    rw [hlk, ← dkarr, ← dcols] at hst
    refine ⟨st, hst, hinv.2.1, ?_⟩
    rw [hinv.2.1]
    exact Nat.min_le_right _ _
  · intro r hr
    obtain ⟨st, hst, hinv⟩ := read_rows_prefix dec.matrix dec.rows dec.cols r hr dshape
    refine ⟨st, hst, hinv.2.1, ?_⟩
    rw [hinv.2.1]
    exact Nat.mul_le_mul_right dec.cols hr

/-- Witness of C20: the string "ol_lo_ew_lr_h_dxx" under the key "zebra". -/
theorem C20_index_safety_witness :
    (∀ t k : Option (List Int), encryption t k ≠ Except.error Error.OutOfBounds ∧
      decryption t k ≠ Except.error Error.OutOfBounds) ∧
    ∃ enc dec, encryption (some (str "ol_lo_ew_lr_h_dxx")) (some (str "zebra")) = Except.ok enc ∧
      decryption (some (str "ol_lo_ew_lr_h_dxx")) (some (str "zebra")) = Except.ok dec ∧
      (∀ i, i < (str "ol_lo_ew_lr_h_dxx").length →
        i / enc.cols < enc.rows ∧ i % enc.cols < enc.cols) ∧
      enc.karr.length = enc.cols ∧ dec.karr = enc.karr ∧ dec.cols = enc.cols ∧
      (∀ k (hk : k < enc.karr.length),
        0 ≤ (enc.karr[k]).idx ∧ (enc.karr[k]).idx.toNat < enc.cols) ∧
      (∀ k, k ≤ enc.cols →
        ∃ st, read_columns enc.matrix enc.karr enc.rows k
            (List.replicate (enc.rows * enc.cols + 1) 0, 0) = some st ∧
          st.2 = k * enc.rows ∧ st.2 ≤ enc.rows * enc.cols) ∧
      enc.cipher.length = enc.rows * enc.cols ∧
      (∀ k, k ≤ dec.cols →
        ∃ st, fill_columns (str "ol_lo_ew_lr_h_dxx") dec.karr dec.rows k
            (alloc_matrix dec.rows dec.cols, 0) = some st ∧
          st.2 = min (k * dec.rows) (str "ol_lo_ew_lr_h_dxx").length ∧
          st.2 ≤ (str "ol_lo_ew_lr_h_dxx").length) ∧
      (∀ r, r ≤ dec.rows →
        ∃ st, read_rows dec.matrix r dec.cols
            (List.replicate (dec.rows * dec.cols + 1) 0, 0) = some st ∧
          st.2 = r * dec.cols ∧ st.2 ≤ dec.rows * dec.cols) ∧
      dec.plain.length = dec.rows * dec.cols :=
  C20_index_safety (str "ol_lo_ew_lr_h_dxx") (str "zebra") (by decide)

end Ctr
